import Mathlib

/-!
Verification of the constraint-based slot-filling engine in
`scheduler_logic.py`.

Shallow embedding conventions:
* clock times and datetimes on the reference day are minutes since midnight
  of 1970-01-01 (`Nat`); `.time()` extraction is `% 1440`;
* `pd.NaT` and absent dictionary keys are `none`;
* a raised exception that propagates out of a function is `none` at an
  outer `Option` layer;
* Python `dict` values keyed by strings are association lists
  (`List (String × String)`) with insertion-order iteration and
  key-overwrite update, or total functions with a default;
* Python `set` values are duplicate-free lists; every place the source
  iterates a set it first applies `sorted`, which is modelled with
  insertion sort under the code-point order (`pySorted`);
* the YAML `position` field of a rule is modelled as a list of names (the
  scalar YAML form is normalised to a singleton list).
-/

namespace NewSchedule

/-- Python `str.strip()` on a character list: drop whitespace from both ends. -/
def pyStripChars (l : List Char) : List Char :=
  ((l.dropWhile Char.isWhitespace).reverse.dropWhile Char.isWhitespace).reverse

/-- Python `str.strip()`. -/
def pyStrip (s : String) : String := ⟨pyStripChars s.data⟩

/-- Python `str.upper()` (ASCII fragment, which covers all inputs used). -/
def pyUpper (s : String) : String := ⟨s.data.map Char.toUpper⟩

/-- Numeric value of a decimal digit character. -/
def digitVal (c : Char) : Nat := c.toNat - '0'.toNat

/-- Parse a non-empty all-digit character list as a decimal number. -/
def parseDigits (l : List Char) : Option Nat :=
  if l.isEmpty then none
  else if l.all Char.isDigit then some (l.foldl (fun n c => n * 10 + digitVal c) 0)
  else none

/-- Split a character list at every occurrence of `sep`. -/
def splitOnChar (sep : Char) : List Char → List (List Char)
  | [] => [[]]
  | c :: cs =>
    let r := splitOnChar sep cs
    if c = sep then [] :: r
    else
      match r with
      | [] => [[c]]
      | g :: gs => (c :: g) :: gs

/-- Parse an `H:MM` or bare-hour core, with an optional AM(false)/PM(true)
marker, to minutes since midnight.  This is the fragment of
`pandas.to_datetime` relevant to the clock-time strings this program feeds
it; anything outside the fragment fails (`none`), as `to_datetime` raises
`ValueError` there. -/
def parseHM (core : List Char) (meridiem : Option Bool) : Option Nat :=
  match splitOnChar ':' core with
  | [h, m] =>
    match parseDigits h, parseDigits m with
    | some hn, some mn =>
      if 60 ≤ mn then none
      else
        match meridiem with
        | none => if hn ≤ 23 then some (hn * 60 + mn) else none
        | some pm =>
          if 1 ≤ hn ∧ hn ≤ 12 then some ((hn % 12 + (if pm then 12 else 0)) * 60 + mn)
          else none
    | _, _ => none
  | [h] =>
    match parseDigits h, meridiem with
    | some hn, some pm =>
      if 1 ≤ hn ∧ hn ≤ 12 then some ((hn % 12 + (if pm then 12 else 0)) * 60)
      else none
    | _, _ => none
  | _ => none

/-- The attempted `pd.to_datetime(f"{ref_date} {str(time_val).strip()}")`
of `parse_time_input`, restricted to the reference day: strip, detect a
case-insensitive AM/PM suffix, parse the remaining clock core.  `none`
models the raised `ValueError` for unparsable strings. -/
def parseClock (s : String) : Option Nat :=
  let t := pyStripChars s.data
  let up := t.map Char.toUpper
  let n := up.length
  if 2 ≤ n ∧ up.drop (n - 2) = ['A', 'M'] then
    parseHM (pyStripChars (up.take (n - 2))) (some false)
  else if 2 ≤ n ∧ up.drop (n - 2) = ['P', 'M'] then
    parseHM (pyStripChars (up.take (n - 2))) (some true)
  else parseHM up none

/-- `parse_time_input` (scheduler_logic.py lines 15-18).  `none` is `pd.NaT`:
returned directly for a missing value, the empty string or `"N/A"`
(case-insensitive, after stripping), and also returned when the
`pd.to_datetime` attempt raises `ValueError`. -/
def parse_time_input : Option String → Option Nat
  | none => none
  | some s =>
    if pyUpper (pyStrip s) = "N/A" ∨ pyStrip s = "" then none
    else parseClock s

/-- `strftime('%I:%M %p').lstrip('0')` of a minutes value: 12-hour clock,
no leading zero on the hour, zero-padded minutes. -/
def formatSlot (t : Nat) : String :=
  let tod := t % 1440
  let h24 := tod / 60
  let m := tod % 60
  let h12 := (h24 + 11) % 12 + 1
  let mm := if m < 10 then "0" ++ toString m else toString m
  toString h12 ++ ":" ++ mm ++ " " ++ (if h24 < 12 then "AM" else "PM")

/-- Code-point lexicographic `≤` on character lists: Python's string
ordering. -/
def pyLeChars : List Char → List Char → Bool
  | [], _ => true
  | _ :: _, [] => false
  | c :: cs, d :: ds =>
    if c.toNat < d.toNat then true
    else if d.toNat < c.toNat then false
    else pyLeChars cs ds

/-- Python's `≤` on strings. -/
def pyLe (a b : String) : Bool := pyLeChars a.data b.data

/-- Python `sorted` on a list of strings (modelled with insertion sort;
the elements of a Python set are pairwise distinct, so any correct sort
produces the same list). -/
def pySorted (l : List String) : List String :=
  List.insertionSort (fun a b => pyLe a b = true) l

/-- `BASE_FINAL_SCHEDULE_ROW_ORDER` (scheduler_logic.py lines 9-12). -/
def BASE_FINAL_SCHEDULE_ROW_ORDER : List String :=
  ["Handout", "Line Buster 1", "Conductor", "Line Buster 2", "Greeter", "Expo",
   "Drink Maker 1", "Drink Maker 2", "Line Buster 3", "Break",
   "Training off the Line or Frosting?"]

/-- One employee's per-solver state dictionary: `last_pos`, `time_in_pos`,
`history`, with the `.get` defaults `None`, `0`, `[]`. -/
structure EmpState where
  last_pos : Option String
  time_in_pos : Nat
  history : List String
deriving DecidableEq

/-- The empty state dictionary `{}` seen through its `.get` defaults. -/
def emptyState : EmpState := ⟨none, 0, []⟩

/-- `employee_states`: a total map with the empty dictionary as default. -/
abbrev States := String → EmpState

/-- One entry of the rule file's `position_rules` list. -/
structure Rule where
  start_time : Option String
  end_time : Option String
  position : List String
  max_consecutive_slots : Option Nat
  max_consecutive_slots_in_group : Option Nat
deriving DecidableEq

/-- The `prioritization_strategy` mapping. -/
structure Strategy where
  focus_on_consistency_for : List String
deriving DecidableEq

/-- The whole rule configuration dictionary. -/
structure Rules where
  position_rules : List Rule
  prioritization_strategy : Option Strategy
deriving DecidableEq

/-- `rules.get('prioritization_strategy', {}).get('focus_on_consistency_for', [])`. -/
def consistency_roles (rules : Rules) : List String :=
  (rules.prioritization_strategy.map Strategy.focus_on_consistency_for).getD []

/-- `last_pos in rule_positions` for the group clause of a rule. -/
def lastPosIn (lp : Option String) (ps : List String) : Bool :=
  match lp with
  | some p => decide (p ∈ ps)
  | none => false

/-- The `for rule in rules.get('position_rules', [])` loop body of
`is_assignment_valid` (lines 60-69).  Each rule's window bounds are parsed
with the defaults `'12:00 AM'` / `'11:59 PM'`; an unparsable bound gives
`pd.NaT`, whose `.time()` raises — modelled by `none`. -/
def is_assignment_valid_loop (position : String) (current_time : Nat) (st : EmpState) :
    List Rule → Option Bool
  | [] => some true
  | r :: rs =>
    match parse_time_input (some (r.start_time.getD "12:00 AM")),
          parse_time_input (some (r.end_time.getD "11:59 PM")) with
    | some rs_t, some re_t =>
      if ¬ (rs_t % 1440 ≤ current_time ∧ current_time < re_t % 1440) then
        is_assignment_valid_loop position current_time st rs
      else if position ∈ r.position then
        if st.last_pos = some position ∧ r.max_consecutive_slots.getD 99 ≤ st.time_in_pos then
          some false
        else
          match r.max_consecutive_slots_in_group with
          | some g =>
            if lastPosIn st.last_pos r.position ∧ g ≤ st.time_in_pos then some false
            else is_assignment_valid_loop position current_time st rs
          | none => is_assignment_valid_loop position current_time st rs
      else is_assignment_valid_loop position current_time st rs
    | _, _ => none

/-- `is_assignment_valid` (scheduler_logic.py lines 56-70).  The slot's
datetime is `time_slot_obj`; `none` there models `pd.NaT`, whose `.time()`
on line 59 raises, so the whole call crashes (`none` result). -/
def is_assignment_valid (employee position : String) (time_slot_obj : Option Nat)
    (employee_states : States) (rules : Rules) : Option Bool := do
  let st := employee_states employee
  let t ← time_slot_obj
  is_assignment_valid_loop position (t % 1440) st rules.position_rules

/-- `calculate_assignment_score` (scheduler_logic.py lines 72-86). -/
def calculate_assignment_score (assignments : List (String × String))
    (employee_states : States) (rules : Rules) : Int :=
  assignments.foldl
    (fun score pe =>
      let pos := pe.1
      let st := employee_states pe.2
      if pos ∈ consistency_roles rules then
        if st.last_pos = some pos then score + 10 else score
      else
        let history := st.history
        if pos ∉ history then score + 1
        else if history.getLast? = some pos then score - 10
        else if 1 < history.length ∧ history.get? (history.length - 2) = some pos then score - 5
        else score)
    0

/-- The `all(is_assignment_valid(...) for pos, emp in assigns.items())`
check of line 99, short-circuiting at the first invalid pair; a crash in an
evaluated pair propagates. -/
def pairing_all_valid (assigns : List (String × String)) (tObj : Option Nat)
    (states : States) (rules : Rules) : Option Bool :=
  match assigns with
  | [] => some true
  | pe :: rest => do
    let b ← is_assignment_valid pe.2 pe.1 tObj states rules
    if b then pairing_all_valid rest tObj states rules else some false

/-- All ways to pick one element out of a list, paired with the remaining
elements in their original order. -/
def pickEach : List α → List (α × List α)
  | [] => []
  | x :: xs => (x, xs) :: (pickEach xs).map (fun p => (p.1, x :: p.2))

/-- Fuelled generator for `itertools.permutations` order. -/
def permsLexAux : Nat → List α → List (List α)
  | 0, _ => [[]]
  | n + 1, l =>
    match l with
    | [] => [[]]
    | _ :: _ => (pickEach l).flatMap (fun p => (permsLexAux n p.2).map (p.1 :: ·))

/-- `itertools.permutations(l)`: every permutation of `l`, in the order
itertools enumerates them (lexicographic in the input positions). -/
def permsLex (l : List α) : List (List α) := permsLexAux l.length l

/-- Keys of an association-list dictionary. -/
def dictKeys (d : List (String × String)) : List String := d.map Prod.fst

/-- `d[k] = v` on a dictionary: overwrite in place if the key exists
(keeping its position), else append. -/
def dictInsert (k v : String) (d : List (String × String)) : List (String × String) :=
  if k ∈ dictKeys d then d.map (fun q => if q.1 = k then (k, v) else q)
  else d ++ [(k, v)]

/-- `d.update(upd)` / `{**d, **upd}`. -/
def dictMerge (d upd : List (String × String)) : List (String × String) :=
  upd.foldl (fun acc q => dictInsert q.1 q.2 acc) d

/-- `d.get(k)` on a dictionary. -/
def dictLookup (k : String) (d : List (String × String)) : Option String :=
  (d.find? (fun q => q.1 == k)).map Prod.snd

/-- The `any(... for r in rules.get('position_rules', []))` test of line 109:
some rule has a group threshold and governs both the new and the previous
position. -/
def in_same_group (rules : Rules) (pos : String) (last_pos : Option String) : Bool :=
  rules.position_rules.any
    (fun r => r.max_consecutive_slots_in_group.isSome && decide (pos ∈ r.position) &&
      lastPosIn last_pos r.position)

/-- Python `l[-n:]`. -/
def lastN (n : Nat) (l : List String) : List String := l.drop (l.length - n)

/-- The loop body of lines 106-111 for one `(position, employee)` pair:
write into `new_states` a fresh state computed from the PRE-slot states
(`employee_states`, not `new_states`). -/
def commit_entry (employee_states : States) (rules : Rules) (ns : States)
    (pe : String × String) : States :=
  let st := employee_states pe.2
  let time_in_pos :=
    if st.last_pos = some pe.1 ∨ in_same_group rules pe.1 st.last_pos then
      st.time_in_pos + 1
    else 1
  fun e => if e = pe.2 then ⟨some pe.1, time_in_pos, lastN 3 (st.history ++ [pe.1])⟩ else ns e

/-- The per-slot employee-state commit of lines 104-111: fold
`commit_entry` over the merged slot assignment, starting from a copy of
the incoming states. -/
def update_states (full_assigns : List (String × String)) (employee_states : States)
    (rules : Rules) : States :=
  full_assigns.foldl (commit_entry employee_states rules) employee_states

/-- The `for p in permutations(avail_emps)` loop of lines 96-102: fold the
permutations, keeping `(best_score, best_perm)` (`none` is the initial
`-inf/None` pair), updating only on a strictly larger score.  The outer
`Option` is crash propagation from the validity check. -/
def find_best_assignment (positions : List String) (tObj : Option Nat) (states : States)
    (rules : Rules) :
    List (List String) → Option (Int × List (String × String)) →
      Option (Option (Int × List (String × String)))
  | [], best => some best
  | p :: rest, best => do
    let assigns := positions.zip p
    let valid ← pairing_all_valid assigns tObj states rules
    let best' :=
      if valid then
        let score := calculate_assignment_score assigns states rules
        match best with
        | none => some (score, assigns)
        | some b => if b.1 < score then some (score, assigns) else some b
      else best
    find_best_assignment positions tObj states rules rest best'

/-- A per-slot schedule dictionary: slot label → position→employee dict. -/
abbrev Schedule := String → List (String × String)

/-- `solve_schedule_recursive` (scheduler_logic.py lines 88-115).
Result: `none` = a raised exception; `some none` = `(False, None)`;
`some (some s)` = `(True, s)`.  Note the source commits only the single
best-scoring pairing and, when the recursive continuation fails, returns
failure without trying any other pairing. -/
def solve_schedule_recursive (availability : String → List String) (rules : Rules)
    (work_positions : List String) :
    List String → Schedule → States → Option (Option Schedule)
  | [], schedule, _ => some (some schedule)
  | t :: rest, schedule, employee_states => do
    let tObj := parse_time_input (some t)
    let positions_to_fill := work_positions.filter (fun p => decide (p ∉ dictKeys (schedule t)))
    let avail_emps := pySorted (availability t)
    let positions_capped := positions_to_fill.take avail_emps.length
    let best ← find_best_assignment positions_capped tObj employee_states rules
      (permsLex avail_emps) none
    match best with
    | none => some none
    | some b =>
      let full_assigns := dictMerge (schedule t) b.2
      let new_states := update_states full_assigns employee_states rules
      let schedule' : Schedule := fun s => if s = t then full_assigns else schedule s
      let res ← solve_schedule_recursive availability rules work_positions rest schedule'
        new_states
      match res with
      | some final => some (some final)
      | none => some none

/-- One raw employee form record (`employee_data_list` entries); every field
is a free-form clock-time string or the name, each possibly absent. -/
structure EmployeeData where
  name : Option String
  shift_start : Option String
  shift_end : Option String
  break_start : Option String
  training_start : Option String
  training_end : Option String
deriving DecidableEq

/-- One row of the long-format availability frame built by
`preprocess_employee_data`. -/
structure SlotRecord where
  time : Nat
  employeeName : String
  isWorking : Bool
  isOnBreak : Bool
  isOnTraining : Bool
deriving DecidableEq

/-- Python `raw.split(' ', 1)`: the part before the first space, and the
remainder after it when a space exists. -/
def splitFirstSpace : List Char → List Char × Option (List Char)
  | [] => ([], none)
  | c :: cs =>
    if c = ' ' then ([], some cs)
    else
      let r := splitFirstSpace cs
      (c :: r.1, r.2)

/-- The name normalisation of lines 32-33:
`f"{parts[0]} {parts[1][0] if len(parts) > 1 and parts[1] else ''}.".strip()`. -/
def display_name_chars (raw : List Char) : List Char :=
  let fp := splitFirstSpace raw
  let initial : List Char :=
    match fp.2 with
    | some [] => []
    | some (c :: _) => [c]
    | none => []
  pyStripChars (fp.1 ++ [' '] ++ initial ++ ['.'])

/-- String wrapper for `display_name_chars`. -/
def display_name (raw : String) : String := ⟨display_name_chars raw.data⟩

/-- The `while curr < s_end: ... curr += 30min` grid: times
`s + 30*k` strictly below `e`. -/
def slotTimes (s e : Nat) : List Nat :=
  (List.range ((e - s + 29) / 30)).map (fun k => s + 30 * k)

/-- `t_end = training_end or (training_start + 60min if notna else NaT)`
of line 41 (`pd.NaT` is falsy, a real datetime is truthy). -/
def t_end_of (training_start training_end : Option Nat) : Option Nat :=
  match training_end with
  | some te => some te
  | none => training_start.map (· + 60)

/-- The per-employee body of `preprocess_employee_data` (lines 31-52):
clip the parsed shift to the store bounds, then classify every 30-minute
slot of the clipped shift. -/
def preprocess_one (emp_data : EmployeeData) (store_open_dt store_close_dt : Nat) :
    List SlotRecord :=
  let name := display_name (emp_data.name.getD "")
  let s_start := (parse_time_input emp_data.shift_start).map
    (fun v => if v < store_open_dt then store_open_dt else v)
  let s_end := (parse_time_input emp_data.shift_end).map
    (fun v => if store_close_dt < v then store_close_dt else v)
  let b_start := parse_time_input emp_data.break_start
  let training_start := parse_time_input emp_data.training_start
  let t_end := t_end_of training_start (parse_time_input emp_data.training_end)
  match s_start, s_end with
  | some ss, some se =>
    (slotTimes ss se).map (fun curr =>
      let on_break :=
        match b_start with
        | some bs => decide (bs ≤ curr ∧ curr < bs + 30)
        | none => false
      let on_training :=
        match training_start, t_end with
        | some ts, some te => decide (ts ≤ curr ∧ curr < te)
        | _, _ => false
      ⟨curr, name, !(on_break || on_training), on_break, on_training⟩)
  | _, _ => []

/-- `preprocess_employee_data` (scheduler_logic.py lines 28-53): the
concatenated long-format rows over all employees. -/
def preprocess_employee_data (l : List EmployeeData) (store_open_dt store_close_dt : Nat) :
    List SlotRecord :=
  l.flatMap (fun e => preprocess_one e store_open_dt store_close_dt)

/-- One raw override record. -/
structure Override where
  employee : Option String
  position : Option String
  start_time : Option String
  end_time : Option String
deriving DecidableEq

/-- The `while curr < end_dt` loop of lines 140-147 for one override: at
every stepped time whose formatted label is a grid slot, pin
`schedule[label][pos] = emp` and drop `emp` from that label's availability. -/
def pinLoop (time_slots_str : List String) (pos emp : String) :
    List Nat → Schedule × (String → List String) → Schedule × (String → List String)
  | [], sa => sa
  | curr :: rest, sa =>
    let time_str := formatSlot curr
    if time_str ∈ time_slots_str then
      let schedule' : Schedule :=
        fun s => if s = time_str then dictInsert pos emp (sa.1 s) else sa.1 s
      let availability' : String → List String :=
        fun s => if s = time_str then (sa.2 s).erase emp else sa.2 s
      pinLoop time_slots_str pos emp rest (schedule', availability')
    else pinLoop time_slots_str pos emp rest sa

/-- The per-override body of lines 136-147: skip the override when the
employee or position is missing/empty or a time bound fails to parse,
else pin every stepped slot of `[start, end)`. -/
def apply_override (time_slots_str : List String) (ov : Override)
    (sa : Schedule × (String → List String)) : Schedule × (String → List String) :=
  let emp := ov.employee.getD ""
  let pos := ov.position.getD ""
  match parse_time_input ov.start_time, parse_time_input ov.end_time with
  | some start_dt, some end_dt =>
    if emp = "" ∨ pos = "" then sa
    else pinLoop time_slots_str pos emp (slotTimes start_dt end_dt) sa
  | _, _ => sa

/-- The `for override in overrides` loop (input order). -/
def apply_overrides (time_slots_str : List String) (overrides : List Override)
    (sa : Schedule × (String → List String)) : Schedule × (String → List String) :=
  overrides.foldl (fun acc ov => apply_override time_slots_str ov acc) sa

/-- One row of the final table before transposition: slot label, the
assigned positions in catalog order, and the joined break/training cells. -/
structure ScheduleRow where
  time : String
  assigns : List (String × String)
  breakCell : String
  trainingCell : String
deriving DecidableEq

/-- Result of one `create_rule_based_schedule` run: the two early-return
strings, a propagated exception, or the solved table. -/
inductive RunResult where
  | noData : RunResult
  | infeasible : RunResult
  | crash : RunResult
  | ok : List ScheduleRow → RunResult
deriving DecidableEq

/-- Employees with a given flag at a given raw time, as the duplicate-free
set the source builds (`set(slot_data[...]['EmployeeName'])`). -/
def slotNames (rows : List SlotRecord) (flag : SlotRecord → Bool) (td : Nat) : List String :=
  ((rows.filter (fun r => flag r && decide (r.time = td))).map (·.employeeName)).dedup

/-- Build the label-keyed per-slot set map from `(raw time, label)` pairs;
a later pair with the same label overwrites, as in the source's dict
assignment loop. -/
def buildSlotFun (pairs : List (Nat × String)) (f : Nat → List String) :
    String → List String :=
  pairs.foldl (fun acc p => fun s => if s = p.2 then f p.1 else acc s) (fun _ => [])

/-- Lines 135-161 of `create_rule_based_schedule`, parameterised by the
already-built per-slot sets (each supplied as one chosen enumeration of the
Python set): apply overrides, run the solver, and render the rows, joining
the sorted break/training sets. -/
def pipeline_from_sets (time_slots_str : List String)
    (availability breaksF trainingF : String → List String) (rules : Rules)
    (work_positions : List String) (overrides : List Override) : RunResult :=
  let sa := apply_overrides time_slots_str overrides (fun _ => [], availability)
  match solve_schedule_recursive sa.2 rules work_positions time_slots_str sa.1
      (fun _ => emptyState) with
  | none => .crash
  | some none => .infeasible
  | some (some sched) =>
    .ok (time_slots_str.map (fun ts =>
      ⟨ts,
        work_positions.filterMap (fun p => (dictLookup p (sched ts)).map (fun e => (p, e))),
        String.intercalate ", " (pySorted (breaksF ts)),
        String.intercalate ", " (pySorted (trainingF ts))⟩))

/-- `create_rule_based_schedule` (scheduler_logic.py lines 117-161), up to
the purely presentational CSV serialisation: the table keeps only catalog
positions (the DataFrame column selection) and the break/training cells
overwrite any same-named pinned key, as in the source's row-dict order. -/
def create_rule_based_schedule_core (store_open_dt store_close_dt : Nat)
    (employee_data_list : List EmployeeData) (rules : Rules) (has_lobby : Bool)
    (overrides : List Override) : RunResult :=
  let row_order :=
    if has_lobby then BASE_FINAL_SCHEDULE_ROW_ORDER
    else BASE_FINAL_SCHEDULE_ROW_ORDER.erase "Greeter"
  let work_positions := row_order.filter
    (fun p => decide (p ∉ ["Break", "Training off the Line or Frosting?"]))
  let rows := preprocess_employee_data employee_data_list store_open_dt store_close_dt
  if rows = [] then .noData
  else
    let time_slots_dt := List.insertionSort (· ≤ ·) (rows.map (·.time)).dedup
    let pairs := time_slots_dt.map (fun td => (td, formatSlot td))
    let time_slots_str := pairs.map Prod.snd
    pipeline_from_sets time_slots_str
      (buildSlotFun pairs (slotNames rows (·.isWorking)))
      (buildSlotFun pairs (slotNames rows (·.isOnBreak)))
      (buildSlotFun pairs (slotNames rows (·.isOnTraining)))
      rules work_positions overrides

/-- `True` exactly on the `(False, None)` solver outcome. -/
def isFailure : Option (Option Schedule) → Bool
  | some none => true
  | _ => false

/-- `True` exactly on a `(True, schedule)` solver outcome. -/
def isSolved : Option (Option Schedule) → Bool
  | some (some _) => true
  | _ => false

/-! Concrete instances used to settle individual claims. -/

/-- Two slots; both employees available at 9:00, only `a` at 9:30. -/
def c1_avail : String → List String := fun s =>
  if s = "9:00 AM" then ["a", "b"] else if s = "9:30 AM" then ["a"] else []

/-- One rule: at most 1 consecutive slot on `P1`, no window, no strategy. -/
def c1_rules : Rules := ⟨[⟨none, none, ["P1"], some 1, none⟩], none⟩

/-- The empty `employee_states` dictionary at solve start. -/
def init_states : States := fun _ => emptyState

/-- The slot-1 schedule after committing the alternative pairing
`{P1: b, P2: a}` at `9:00 AM`. -/
def c1_sched_alt : Schedule := fun t =>
  if t = "9:00 AM" then dictMerge [] (["P1", "P2"].zip ["b", "a"]) else []

/-- An employee whose last position was `Conductor` for 5 slots. -/
def c3_states : States := fun _ => ⟨some "Conductor", 5, []⟩

/-- One windowless rule capping `Conductor` at 2 consecutive slots. -/
def c3_rules : Rules := ⟨[⟨none, none, ["Conductor"], some 2, none⟩], none⟩

/-- States giving the two employees opposite position histories. -/
def c7_states : States := fun e =>
  if e = "a" then ⟨some "P1", 1, ["P1"]⟩
  else if e = "b" then ⟨some "P2", 1, ["P2"]⟩
  else emptyState

/-- A rule set with no `position_rules` and no `prioritization_strategy`. -/
def c7_rules : Rules := ⟨[], none⟩

/-- A single-slot employee record (9:00 AM to 9:30 AM shift). -/
def annBell : EmployeeData :=
  ⟨some "Ann Bell", some "9:00 AM", some "9:30 AM", none, none, none⟩

/-- Two complete overrides pinning the same employee `Zed` to two
different positions over the same slot. -/
def c2_ovs : List Override :=
  [⟨some "Zed", some "Handout", some "9:00 AM", some "9:30 AM"⟩,
   ⟨some "Zed", some "Conductor", some "9:00 AM", some "9:30 AM"⟩]

/-- A two-slot employee record (9:00 AM to 10:00 AM shift). -/
def annBell2 : EmployeeData :=
  ⟨some "Ann Bell", some "9:00 AM", some "10:00 AM", none, none, none⟩

/-- A complete override whose `[start, end)` range (9:15-10:15) covers the
9:30 grid slot but is offset 15 minutes from the slot grid. -/
def c5_ovs : List Override := [⟨some "Bob", some "Expo", some "9:15 AM", some "10:15 AM"⟩]

/-- An employee whose 30-minute break window and 60-minute training window
both contain the 9:00 slot. -/
def c6_emp : EmployeeData :=
  ⟨some "Ann Bell", some "9:00 AM", some "9:30 AM", some "9:00 AM", some "9:00 AM", none⟩

/-- Spec-side failure condition of one rule for a candidate
`(employee, position, slot-time)` (claim C3, with the corrected default
window `[12:00 AM, 11:59 PM)` and default threshold 99): the rule's
applicability window contains the slot time, the rule governs the
position, and either (a) the employee's last position equals the candidate
position with the counter at or above the rule's threshold, or (b) the
rule has a group threshold, the employee's last position belongs to the
same governed set, and the counter is at or above that group threshold. -/
def rule_fails (r : Rule) (position : String) (ct : Nat) (st : EmpState) : Prop :=
  ∃ rs_t re_t,
    parse_time_input (some (r.start_time.getD "12:00 AM")) = some rs_t ∧
    parse_time_input (some (r.end_time.getD "11:59 PM")) = some re_t ∧
    rs_t % 1440 ≤ ct ∧ ct < re_t % 1440 ∧
    position ∈ r.position ∧
    ((st.last_pos = some position ∧ r.max_consecutive_slots.getD 99 ≤ st.time_in_pos) ∨
     (∃ g, r.max_consecutive_slots_in_group = some g ∧
        (∃ lp, st.last_pos = some lp ∧ lp ∈ r.position) ∧ g ≤ st.time_in_pos))

/-- States for the C10 witness: every employee held `P` for 2 slots. -/
def c10_st : States := fun _ => ⟨some "P", 2, ["P"]⟩

/-- Empty rule set for the C10 witness. -/
def c10_ru : Rules := ⟨[], none⟩

/-- The schedule carried by a solved outcome (junk default otherwise). -/
def extractSchedule (r : Option (Option Schedule)) : Schedule :=
  match r with
  | some (some s) => s
  | _ => fun _ => []

/-- Availability for the C2 witness: one working employee at 9:00 AM. -/
def c2w_avail : String → List String := fun s => if s = "9:00 AM" then ["Ann B."] else []

/-- Initial schedule for the C2 witness: `Zed` pinned to `Handout`. -/
def c2w_sched0 : Schedule := fun s => if s = "9:00 AM" then [("Handout", "Zed")] else []

/-- Empty rule set for the C2 witness. -/
def c2w_rules : Rules := ⟨[], none⟩

/-- The C2 witness solver run. -/
def c2w_solve : Option (Option Schedule) :=
  solve_schedule_recursive c2w_avail c2w_rules ["Handout", "Conductor"] ["9:00 AM"]
    c2w_sched0 init_states

/-! ## Claim theorems -/

/-- C1, counterexample.  The claim says the Slot Solver, on failure of the
chosen pairing's continuation, tries the next valid pairing and reports
failure only after every pairing has been tried.  On this instance the
solver reports failure for the two-slot problem, yet the valid pairing
`{P1: b, P2: a}` at the first slot (an element of the permutation
enumeration) leads to a solved continuation of the remaining slot: the
source commits only its single best-scoring pairing and never tries
another. -/
theorem c1_counterexample :
    isFailure (solve_schedule_recursive c1_avail c1_rules ["P1", "P2"]
      ["9:00 AM", "9:30 AM"] (fun _ => []) init_states) = true ∧
    pairing_all_valid (["P1", "P2"].zip ["b", "a"]) (parse_time_input (some "9:00 AM"))
      init_states c1_rules = some true ∧
    ["b", "a"] ∈ permsLex (pySorted (c1_avail "9:00 AM")) ∧
    isSolved (solve_schedule_recursive c1_avail c1_rules ["P1", "P2"] ["9:30 AM"]
      c1_sched_alt
      (update_states (dictMerge [] (["P1", "P2"].zip ["b", "a"])) init_states c1_rules)) =
      true := by
  decide

/-- C2, counterexample.  A successful run whose slot assigns the employee
`Zed` to two positions (`Handout` and `Conductor`) at once, because two
overrides pinned the same employee to two positions over the same slot:
the claimed within-slot employee-uniqueness invariant does not hold for
override-pinned assignments. -/
theorem c2_counterexample :
    create_rule_based_schedule_core 540 570 [annBell] ⟨[], none⟩ false c2_ovs =
      .ok [⟨"9:00 AM", [("Handout", "Zed"), ("Line Buster 1", "Ann B."), ("Conductor", "Zed")],
        "", ""⟩] ∧
    ¬ ([("Handout", "Zed"), ("Line Buster 1", "Ann B."), ("Conductor", "Zed")].map
      Prod.snd).Nodup := by
  decide

/-- C3, counterexample.  The claim says a rule with no applicability window
covers the whole day.  Here the single rule has no window, governs
`Conductor`, and its clause (a) holds (last position `Conductor`, counter
5 ≥ threshold 2), so at slot time 11:59 PM (minute 1439, inside the day)
the claim demands "invalid"; the code answers valid, because the default
window is `[12:00 AM, 11:59 PM)` and excludes minute 1439. -/
theorem c3_counterexample :
    is_assignment_valid "x" "Conductor" (some 1439) c3_states c3_rules = some true ∧
    c3_rules.position_rules = [⟨none, none, ["Conductor"], some 2, none⟩] ∧
    (c3_states "x").last_pos = some "Conductor" ∧
    2 ≤ (c3_states "x").time_in_pos := by
  decide

/-- C4, counterexample.  `"garbage"` is non-empty, is not `N/A`, and is not
parsable as a clock time, yet `parse_time_input` returns the very same
`pd.NaT` (`none`) it returns for the empty string: the code catches the
`ValueError` and yields a result indistinguishable from "no value",
contrary to the claimed distinguishable parse failure. -/
theorem c4_counterexample :
    parse_time_input (some "garbage") = parse_time_input (some "") ∧
    parse_time_input (some "garbage") = none ∧
    pyStrip "garbage" ≠ "" ∧ pyUpper (pyStrip "garbage") ≠ "N/A" ∧
    parseClock "garbage" = none := by
  decide

/-- C5, counterexample.  A complete override (`Bob` on `Expo`,
9:15 AM - 10:15 AM) whose interval covers the 9:30 AM grid slot
(555 ≤ 570 < 615), yet the successful run pins nothing at that slot: the
pin loop steps in 30-minute increments from the override's own start, so a
start offset from the grid misses every grid slot inside `[start, end)`. -/
theorem c5_counterexample :
    create_rule_based_schedule_core 540 600 [annBell2] ⟨[], none⟩ false c5_ovs =
      .ok [⟨"9:00 AM", [("Handout", "Ann B.")], "", ""⟩,
           ⟨"9:30 AM", [("Handout", "Ann B.")], "", ""⟩] ∧
    parse_time_input (some "9:15 AM") = some 555 ∧
    parse_time_input (some "10:15 AM") = some 615 ∧
    formatSlot 570 = "9:30 AM" ∧ 555 ≤ 570 ∧ 570 < 615 ∧
    dictLookup "Expo" [("Handout", "Ann B.")] = none := by
  decide

/-- C6, counterexample.  An employee whose break window (9:00-9:30) and
training window (9:00-10:00) overlap: the 9:00 slot is classified as both
on-break and in-training, so the classification is not "exactly one of
working / on-break / in-training". -/
theorem c6_counterexample :
    preprocess_employee_data [c6_emp] 0 1440 = [⟨540, "Ann B.", false, true, true⟩] ∧
    ((⟨540, "Ann B.", false, true, true⟩ : SlotRecord).isOnBreak = true ∧
     (⟨540, "Ann B.", false, true, true⟩ : SlotRecord).isOnTraining = true) := by
  decide

/-- C7, counterexample.  With no scoring policy configured
(`prioritization_strategy` absent) the claim says the solver takes the
first valid pairing found.  Here the first enumerated pairing
`{P1: a, P2: b}` is valid, yet the fold picks `{P1: b, P2: a}`: the
default scoring (empty consistency list, novelty/variety weights) is
applied even when no policy is configured. -/
theorem c7_counterexample :
    c7_rules.prioritization_strategy = none ∧
    (permsLex (pySorted ["a", "b"])).head? = some ["a", "b"] ∧
    pairing_all_valid (["P1", "P2"].zip ["a", "b"]) (some 540) c7_states c7_rules = some true ∧
    find_best_assignment ["P1", "P2"] (some 540) c7_states c7_rules
      (permsLex (pySorted ["a", "b"])) none =
      some (some (2, [("P1", "b"), ("P2", "a")])) ∧
    ([("P1", "b"), ("P2", "a")] : List (String × String)) ≠ ["P1", "P2"].zip ["a", "b"] := by
  decide

/-- C8, counterexample.  For a name with no separable surname the claim
says the plain name is used; the code produces the name followed by a
space and a period (`.strip()` cannot remove the interior space). -/
theorem c8_counterexample :
    display_name "Madonna" = "Madonna ." ∧ display_name "Madonna" ≠ "Madonna" := by
  decide

/-- C4, amended claim, proved: the empty string or `N/A` (case-insensitive,
after stripping) parses to the "no value" result `none`, and a non-empty
string that cannot be parsed as a clock time yields that SAME `none` — the
code raises no distinguishable parse failure. -/
theorem c4_parse_no_value (s : String) :
    parse_time_input none = none ∧
    (parse_time_input (some s) = none ↔
      pyUpper (pyStrip s) = "N/A" ∨ pyStrip s = "" ∨ parseClock s = none) := by
  refine ⟨rfl, ?_⟩
  simp only [parse_time_input]
  split
  next h =>
    exact iff_of_true rfl (h.elim (fun h1 => Or.inl h1) (fun h2 => Or.inr (Or.inl h2)))
  next h =>
    constructor
    · intro hp
      exact Or.inr (Or.inr hp)
    · rintro (h1 | h2 | h3)
      · exact absurd (Or.inl h1) h
      · exact absurd (Or.inr h2) h
      · exact h3

/-- Helper: an employee receiving no entry of the folded assignment list
keeps whatever the accumulator holds for them. -/
theorem foldl_commit_not_mem (es : States) (ru : Rules) (emp : String) :
    ∀ (A : List (String × String)) (ns : States), emp ∉ A.map Prod.snd →
      A.foldl (commit_entry es ru) ns emp = ns emp := by
  intro A
  induction A with
  | nil => intro ns _; rfl
  | cons q rest ih =>
    intro ns h
    simp only [List.map_cons, List.mem_cons, not_or] at h
    rw [List.foldl_cons, ih _ h.2]
    simp only [commit_entry]
    rw [if_neg h.1]

/-- Helper: if every entry of the folded list for `emp` assigns position
`pos` and at least one such entry exists, `emp` ends up with the state
computed from the pre-slot states at `pos`. -/
theorem foldl_commit_mem (es : States) (ru : Rules) (emp pos : String) :
    ∀ (B : List (String × String)) (ns : States), (pos, emp) ∈ B →
      (∀ q ∈ B, q.2 = emp → q.1 = pos) →
      B.foldl (commit_entry es ru) ns emp =
        ⟨some pos,
         if (es emp).last_pos = some pos ∨ in_same_group ru pos (es emp).last_pos then
           (es emp).time_in_pos + 1 else 1,
         lastN 3 ((es emp).history ++ [pos])⟩ := by
  intro B
  induction B with
  | nil => intro ns h; cases h
  | cons q rest ih =>
    intro ns hmem hall
    rw [List.foldl_cons]
    by_cases hr : emp ∈ rest.map Prod.snd
    · obtain ⟨q', hq', hsnd⟩ := List.mem_map.mp hr
      have h1 : q'.1 = pos := hall q' (List.mem_cons_of_mem _ hq') hsnd
      have hq'eq : q' = (pos, emp) := by
        rw [Prod.ext_iff]
        exact ⟨h1, hsnd⟩
      exact ih _ (hq'eq ▸ hq') (fun r hrm => hall r (List.mem_cons_of_mem _ hrm))
    · rw [foldl_commit_not_mem es ru emp rest _ hr]
      have hq : q = (pos, emp) := by
        rcases List.mem_cons.mp hmem with h | h
        · exact h.symm
        · exact absurd (List.mem_map.mpr ⟨(pos, emp), h, rfl⟩) hr
      subst hq
      simp [commit_entry]

/-- C10, confirmed: an employee with no entry in a committed slot keeps
their state unchanged through that slot's commit, and an employee whose
state still records `pos` as last position gets their consecutive-slot
counter incremented (treated as continuing) when a later commit assigns
them `pos` again — regardless of any unassigned gap in between. -/
theorem c10_gap_keeps_state (st : States) (ru : Rules) (emp pos : String)
    (A B : List (String × String)) :
    (emp ∉ A.map Prod.snd → update_states A st ru emp = st emp) ∧
    ((st emp).last_pos = some pos → (pos, emp) ∈ B →
      (∀ q ∈ B, q.2 = emp → q.1 = pos) →
      (update_states B st ru emp).last_pos = some pos ∧
      (update_states B st ru emp).time_in_pos = (st emp).time_in_pos + 1) := by
  constructor
  · intro h
    exact foldl_commit_not_mem st ru emp A st h
  · intro hlast hmem hall
    have hfold := foldl_commit_mem st ru emp pos B st hmem hall
    rw [update_states, hfold]
    refine ⟨rfl, ?_⟩
    simp [hlast]

/-- C10 witness: the theorem applied to the concrete gap scenario — the
slot `[("Q", "f")]` leaves `e`'s state alone, and the later slot
`[("P", "e")]` increments `e`'s counter from 2 to 3 as continuing. -/
theorem c10_gap_keeps_state_witness :
    update_states [("Q", "f")] c10_st c10_ru "e" = c10_st "e" ∧
    (update_states [("P", "e")] c10_st c10_ru "e").last_pos = some "P" ∧
    (update_states [("P", "e")] c10_st c10_ru "e").time_in_pos =
      (c10_st "e").time_in_pos + 1 := by
  have h := c10_gap_keeps_state c10_st c10_ru "e" "P" [("Q", "f")] [("P", "e")]
  have h2 := h.2 (by decide) (by decide) (by decide)
  exact ⟨h.1 (by decide), h2.1, h2.2⟩

/-- Helper: a list with no space is returned whole by `split(' ', 1)`. -/
theorem splitFirstSpace_no_space :
    ∀ (l : List Char), ' ' ∉ l → splitFirstSpace l = (l, none) := by
  intro l
  induction l with
  | nil => intro _; rfl
  | cons c cs ih =>
    intro h
    simp only [List.mem_cons, not_or] at h
    simp only [splitFirstSpace, if_neg (Ne.symm h.1), ih h.2]

/-- Helper: `split(' ', 1)` cuts at the first space. -/
theorem splitFirstSpace_append :
    ∀ (f : List Char), ' ' ∉ f → ∀ (r : List Char),
      splitFirstSpace (f ++ ' ' :: r) = (f, some r) := by
  intro f
  induction f with
  | nil => intro _ r; simp [splitFirstSpace]
  | cons c cs ih =>
    intro h r
    simp only [List.mem_cons, not_or] at h
    simp only [List.cons_append, splitFirstSpace, if_neg (Ne.symm h.1), List.append_eq,
      ih h.2 r]

/-- Helper: stripping changes nothing when both ends are non-whitespace. -/
theorem pyStripChars_eq_self (l : List Char)
    (h1 : ∀ c, l.head? = some c → c.isWhitespace = false)
    (h2 : ∀ c, l.getLast? = some c → c.isWhitespace = false) :
    pyStripChars l = l := by
  have hdrop1 : List.dropWhile Char.isWhitespace l = l := by
    cases l with
    | nil => rfl
    | cons c cs =>
      rw [List.dropWhile_cons, if_neg (by rw [h1 c rfl]; exact Bool.false_ne_true)]
  have hdrop2 : List.dropWhile Char.isWhitespace l.reverse = l.reverse := by
    cases hrev : l.reverse with
    | nil => rfl
    | cons d ds =>
      have hd : l.getLast? = some d := by
        rw [← List.head?_reverse, hrev]
        rfl
      rw [List.dropWhile_cons, if_neg (by rw [h2 d hd]; exact Bool.false_ne_true)]
  unfold pyStripChars
  rw [hdrop1, hdrop2, List.reverse_reverse]

/-- C8, amended claim, proved: for a first name (non-whitespace first
character, no space inside) followed by a space and a surname, the display
name is first name, space, surname initial, period; for a name with no
separable surname the result is the plain name followed by a space and a
period — not the plain name itself. -/
theorem c8_display_name (c d : Char) (cs ds : List Char)
    (hc : c.isWhitespace = false) (hs : ' ' ∉ c :: cs) :
    display_name ⟨c :: cs⟩ = ⟨(c :: cs) ++ [' ', '.']⟩ ∧
    display_name ⟨(c :: cs) ++ ' ' :: (d :: ds)⟩ = ⟨(c :: cs) ++ [' ', d, '.']⟩ := by
  constructor
  · show String.mk (display_name_chars (c :: cs)) = _
    rw [display_name_chars, splitFirstSpace_no_space _ hs]
    have : (c :: cs) ++ [' '] ++ [] ++ ['.'] = (c :: cs) ++ [' ', '.'] := by simp
    rw [this, pyStripChars_eq_self]
    · intro e he
      rw [List.cons_append, List.head?_cons, Option.some_inj] at he
      exact he ▸ hc
    · intro e he
      have hre : ((c :: cs) ++ [' ', '.']) = ((c :: cs) ++ [' ']) ++ ['.'] := by simp
      rw [hre, List.getLast?_concat, Option.some_inj] at he
      subst he
      rfl
  · show String.mk (display_name_chars ((c :: cs) ++ ' ' :: (d :: ds))) = _
    rw [display_name_chars, splitFirstSpace_append _ hs]
    have : (c :: cs) ++ [' '] ++ [d] ++ ['.'] = (c :: cs) ++ [' ', d, '.'] := by simp
    rw [this, pyStripChars_eq_self]
    · intro e he
      rw [List.cons_append, List.head?_cons, Option.some_inj] at he
      exact he ▸ hc
    · intro e he
      have hre : ((c :: cs) ++ [' ', d, '.']) = ((c :: cs) ++ [' ', d]) ++ ['.'] := by simp
      rw [hre, List.getLast?_concat, Option.some_inj] at he
      subst he
      rfl

/-- C8 witness: the theorem applied to `"Ann"` (fallback `"Ann ."`) and
`"Ann Bell"` (normalised `"Ann B."`). -/
theorem c8_display_name_witness :
    display_name ⟨['A', 'n', 'n']⟩ = ⟨['A', 'n', 'n', ' ', '.']⟩ ∧
    display_name ⟨['A', 'n', 'n'] ++ ' ' :: ['B', 'e', 'l', 'l']⟩ =
      ⟨['A', 'n', 'n', ' ', 'B', '.']⟩ := by
  have h := c8_display_name 'A' 'B' ['n', 'n'] ['e', 'l', 'l'] (by decide) (by decide)
  exact ⟨h.1, h.2⟩

/-- Helper: the Boolean group-membership test agrees with its
propositional reading. -/
theorem lastPosIn_iff (lp : Option String) (ps : List String) :
    lastPosIn lp ps = true ↔ ∃ p, lp = some p ∧ p ∈ ps := by
  cases lp with
  | none => simp [lastPosIn]
  | some p => simp [lastPosIn]

/-- Helper: one unfolding step of the rule loop (rule with a group
threshold) once both window bounds parse. -/
theorem valid_loop_cons_group (position : String) (ct : Nat) (st : EmpState) (r : Rule)
    (rest : List Rule) (rs_t re_t g : Nat)
    (hrs : parse_time_input (some (r.start_time.getD "12:00 AM")) = some rs_t)
    (hre : parse_time_input (some (r.end_time.getD "11:59 PM")) = some re_t)
    (hg : r.max_consecutive_slots_in_group = some g) :
    is_assignment_valid_loop position ct st (r :: rest) =
      if ¬ (rs_t % 1440 ≤ ct ∧ ct < re_t % 1440) then
        is_assignment_valid_loop position ct st rest
      else if position ∈ r.position then
        if st.last_pos = some position ∧ r.max_consecutive_slots.getD 99 ≤ st.time_in_pos then
          some false
        else if lastPosIn st.last_pos r.position ∧ g ≤ st.time_in_pos then some false
        else is_assignment_valid_loop position ct st rest
      else is_assignment_valid_loop position ct st rest := by
  simp only [is_assignment_valid_loop, hrs, hre, hg]

/-- Helper: one unfolding step of the rule loop (rule without a group
threshold) once both window bounds parse. -/
theorem valid_loop_cons_nogroup (position : String) (ct : Nat) (st : EmpState) (r : Rule)
    (rest : List Rule) (rs_t re_t : Nat)
    (hrs : parse_time_input (some (r.start_time.getD "12:00 AM")) = some rs_t)
    (hre : parse_time_input (some (r.end_time.getD "11:59 PM")) = some re_t)
    (hg : r.max_consecutive_slots_in_group = none) :
    is_assignment_valid_loop position ct st (r :: rest) =
      if ¬ (rs_t % 1440 ≤ ct ∧ ct < re_t % 1440) then
        is_assignment_valid_loop position ct st rest
      else if position ∈ r.position then
        if st.last_pos = some position ∧ r.max_consecutive_slots.getD 99 ≤ st.time_in_pos then
          some false
        else is_assignment_valid_loop position ct st rest
      else is_assignment_valid_loop position ct st rest := by
  simp only [is_assignment_valid_loop, hrs, hre, hg]

/-- Helper: the rule loop answers `invalid` exactly when some rule of the
list fails the candidate, provided every window bound parses. -/
theorem valid_loop_false_iff (position : String) (ct : Nat) (st : EmpState) :
    ∀ rs : List Rule,
      (∀ r ∈ rs, (parse_time_input (some (r.start_time.getD "12:00 AM"))).isSome ∧
        (parse_time_input (some (r.end_time.getD "11:59 PM"))).isSome) →
      (is_assignment_valid_loop position ct st rs = some false ↔
        ∃ r ∈ rs, rule_fails r position ct st) := by
  intro rs
  induction rs with
  | nil =>
    intro _
    simp [is_assignment_valid_loop]
  | cons r rest ih =>
    intro h
    obtain ⟨hs, he⟩ := h r (List.mem_cons_self r rest)
    obtain ⟨rs_t, hrs⟩ := Option.isSome_iff_exists.mp hs
    obtain ⟨re_t, hre⟩ := Option.isSome_iff_exists.mp he
    have hrest := ih (fun q hq => h q (List.mem_cons_of_mem _ hq))
    have hfail : rule_fails r position ct st ↔
        (rs_t % 1440 ≤ ct ∧ ct < re_t % 1440) ∧ position ∈ r.position ∧
        ((st.last_pos = some position ∧ r.max_consecutive_slots.getD 99 ≤ st.time_in_pos) ∨
         (∃ g, r.max_consecutive_slots_in_group = some g ∧
            (∃ lp, st.last_pos = some lp ∧ lp ∈ r.position) ∧ g ≤ st.time_in_pos)) := by
      constructor
      · rintro ⟨a, b, ha, hb, h1, h2, h3, h4⟩
        rw [hrs] at ha
        rw [hre] at hb
        cases Option.some_inj.mp ha
        cases Option.some_inj.mp hb
        exact ⟨⟨h1, h2⟩, h3, h4⟩
      · rintro ⟨⟨h1, h2⟩, h3, h4⟩
        exact ⟨rs_t, re_t, hrs, hre, h1, h2, h3, h4⟩
    have hlift : (is_assignment_valid_loop position ct st rest = some false ↔
        ∃ q ∈ rest, rule_fails q position ct st) →
        ¬ rule_fails r position ct st →
        (is_assignment_valid_loop position ct st rest = some false ↔
          ∃ q ∈ r :: rest, rule_fails q position ct st) := by
      intro hr hnf
      rw [hr]
      constructor
      · rintro ⟨q, hq, hqf⟩
        exact ⟨q, List.mem_cons_of_mem _ hq, hqf⟩
      · rintro ⟨q, hq, hqf⟩
        rcases List.mem_cons.mp hq with rfl | hq2
        · exact absurd hqf hnf
        · exact ⟨q, hq2, hqf⟩
    cases hg : r.max_consecutive_slots_in_group with
    | some g =>
      rw [valid_loop_cons_group position ct st r rest rs_t re_t g hrs hre hg]
      by_cases hwin : rs_t % 1440 ≤ ct ∧ ct < re_t % 1440
      · rw [if_neg (by simpa using hwin)]
        by_cases hpos : position ∈ r.position
        · rw [if_pos hpos]
          by_cases ha : st.last_pos = some position ∧
              r.max_consecutive_slots.getD 99 ≤ st.time_in_pos
          · rw [if_pos ha]
            exact iff_of_true rfl
              ⟨r, List.mem_cons_self r rest, hfail.mpr ⟨hwin, hpos, Or.inl ha⟩⟩
          · rw [if_neg ha]
            by_cases hb : lastPosIn st.last_pos r.position = true ∧ g ≤ st.time_in_pos
            · rw [if_pos hb]
              exact iff_of_true rfl ⟨r, List.mem_cons_self r rest, hfail.mpr
                ⟨hwin, hpos, Or.inr ⟨g, hg, (lastPosIn_iff _ _).mp hb.1, hb.2⟩⟩⟩
            · rw [if_neg hb]
              refine hlift hrest ?_
              intro hqf
              rcases (hfail.mp hqf).2.2 with hca | ⟨g2, hg2, hlp, hcnt⟩
              · exact ha hca
              · rw [hg] at hg2
                cases Option.some_inj.mp hg2
                exact hb ⟨(lastPosIn_iff _ _).mpr hlp, hcnt⟩
        · rw [if_neg hpos]
          refine hlift hrest ?_
          intro hqf
          exact hpos (hfail.mp hqf).2.1
      · rw [if_pos (by simpa using hwin)]
        refine hlift hrest ?_
        intro hqf
        exact hwin (hfail.mp hqf).1
    | none =>
      rw [valid_loop_cons_nogroup position ct st r rest rs_t re_t hrs hre hg]
      by_cases hwin : rs_t % 1440 ≤ ct ∧ ct < re_t % 1440
      · rw [if_neg (by simpa using hwin)]
        by_cases hpos : position ∈ r.position
        · rw [if_pos hpos]
          by_cases ha : st.last_pos = some position ∧
              r.max_consecutive_slots.getD 99 ≤ st.time_in_pos
          · rw [if_pos ha]
            exact iff_of_true rfl
              ⟨r, List.mem_cons_self r rest, hfail.mpr ⟨hwin, hpos, Or.inl ha⟩⟩
          · rw [if_neg ha]
            refine hlift hrest ?_
            intro hqf
            rcases (hfail.mp hqf).2.2 with hca | ⟨g2, hg2, _, _⟩
            · exact ha hca
            · rw [hg] at hg2
              cases hg2
        · rw [if_neg hpos]
          refine hlift hrest ?_
          intro hqf
          exact hpos (hfail.mp hqf).2.1
      · rw [if_pos (by simpa using hwin)]
        refine hlift hrest ?_
        intro hqf
        exact hwin (hfail.mp hqf).1

/-- C3, amended claim, proved: for every candidate whose rule windows all
parse, the validity test answers `invalid` exactly when some rule whose
window (defaulting to `[12:00 AM, 11:59 PM)` when absent) contains the
slot's time of day and whose governed-position set contains the position
has (a) the employee's last position equal to the candidate position with
the counter at or above the rule's threshold (default 99), or (b) a group
threshold with the last position in the same governed set and the counter
at or above it; otherwise it answers `valid`. -/
theorem c3_validity_characterisation (employee position : String) (ct : Nat)
    (states : States) (rules : Rules)
    (hw : ∀ r ∈ rules.position_rules,
      (parse_time_input (some (r.start_time.getD "12:00 AM"))).isSome ∧
      (parse_time_input (some (r.end_time.getD "11:59 PM"))).isSome) :
    is_assignment_valid employee position (some ct) states rules = some false ↔
      ∃ r ∈ rules.position_rules, rule_fails r position (ct % 1440) (states employee) := by
  show is_assignment_valid_loop position (ct % 1440) (states employee) rules.position_rules =
      some false ↔ _
  exact valid_loop_false_iff position (ct % 1440) (states employee) rules.position_rules hw

/-- C3 witness: the characterisation applied at a concrete candidate — the
windowless `Conductor` rule fails employee `x` at 10:00 AM (minute 600)
after 5 consecutive `Conductor` slots. -/
theorem c3_validity_characterisation_witness :
    is_assignment_valid "x" "Conductor" (some 600) c3_states c3_rules = some false ↔
      ∃ r ∈ c3_rules.position_rules, rule_fails r "Conductor" (600 % 1440) (c3_states "x") := by
  exact c3_validity_characterisation "x" "Conductor" 600 c3_states c3_rules (by decide)

/-- Helper: the one-slot unfolding of the solver, with the candidate
positions, the sorted availability, the chosen-pairing commit and the
failure propagation spelled out. -/
theorem solve_cons_eq (availability : String → List String) (rules : Rules)
    (work_positions : List String) (t : String) (rest : List String)
    (schedule : Schedule) (employee_states : States) :
    solve_schedule_recursive availability rules work_positions (t :: rest) schedule
        employee_states =
      (find_best_assignment
          ((work_positions.filter (fun p => decide (p ∉ dictKeys (schedule t)))).take
            (pySorted (availability t)).length)
          (parse_time_input (some t)) employee_states rules
          (permsLex (pySorted (availability t))) none).bind
        (fun best =>
          match best with
          | none => some none
          | some b =>
            (solve_schedule_recursive availability rules work_positions rest
                (fun s => if s = t then dictMerge (schedule t) b.2 else schedule s)
                (update_states (dictMerge (schedule t) b.2) employee_states rules)).bind
              (fun res =>
                match res with
                | some final => some (some final)
                | none => some none)) := rfl

/-- C1, amended claim, proved: when the solver reports failure at a slot,
either no valid pairing existed there (the best-pairing fold returned the
initial `None`), or the single best-scoring pairing was committed and its
recursive continuation failed — the solver reports failure without trying
any further pairing. -/
theorem c1_single_pairing_failure (availability : String → List String) (rules : Rules)
    (work_positions : List String) (t : String) (rest : List String)
    (schedule : Schedule) (employee_states : States)
    (hfail : solve_schedule_recursive availability rules work_positions (t :: rest)
      schedule employee_states = some none) :
    (find_best_assignment
        ((work_positions.filter (fun p => decide (p ∉ dictKeys (schedule t)))).take
          (pySorted (availability t)).length)
        (parse_time_input (some t)) employee_states rules
        (permsLex (pySorted (availability t))) none = some none) ∨
    (∃ s a,
      find_best_assignment
        ((work_positions.filter (fun p => decide (p ∉ dictKeys (schedule t)))).take
          (pySorted (availability t)).length)
        (parse_time_input (some t)) employee_states rules
        (permsLex (pySorted (availability t))) none = some (some (s, a)) ∧
      solve_schedule_recursive availability rules work_positions rest
        (fun x => if x = t then dictMerge (schedule t) a else schedule x)
        (update_states (dictMerge (schedule t) a) employee_states rules) = some none) := by
  rw [solve_cons_eq] at hfail
  cases hbest : find_best_assignment
      ((work_positions.filter (fun p => decide (p ∉ dictKeys (schedule t)))).take
        (pySorted (availability t)).length)
      (parse_time_input (some t)) employee_states rules
      (permsLex (pySorted (availability t))) none with
  | none =>
    rw [hbest, Option.none_bind] at hfail
    cases hfail
  | some best =>
    rw [hbest, Option.some_bind] at hfail
    cases best with
    | none => exact Or.inl rfl
    | some b =>
      dsimp only at hfail
      cases hres : solve_schedule_recursive availability rules work_positions rest
          (fun s => if s = t then dictMerge (schedule t) b.2 else schedule s)
          (update_states (dictMerge (schedule t) b.2) employee_states rules) with
      | none =>
        rw [hres, Option.none_bind] at hfail
        cases hfail
      | some r2 =>
        rw [hres, Option.some_bind] at hfail
        cases r2 with
        | some final => cases hfail
        | none => exact Or.inr ⟨b.1, b.2, rfl, hres⟩

/-- Helper: a computable failure check implies the failure equation. -/
theorem isFailure_eq {r : Option (Option Schedule)} (h : isFailure r = true) :
    r = some none := by
  match r with
  | some none => rfl
  | none => cases h
  | some (some s) => cases h

/-- C1 witness: the amended theorem applied to the concrete failing
instance of `c1_counterexample` (its hypothesis discharged by
computation). -/
theorem c1_single_pairing_failure_witness :
    (find_best_assignment
        (((["P1", "P2"] : List String).filter
          (fun p => decide (p ∉ dictKeys ((fun _ => [] : Schedule) "9:00 AM")))).take
          (pySorted (c1_avail "9:00 AM")).length)
        (parse_time_input (some "9:00 AM")) init_states c1_rules
        (permsLex (pySorted (c1_avail "9:00 AM"))) none = some none) ∨
    (∃ s a,
      find_best_assignment
        (((["P1", "P2"] : List String).filter
          (fun p => decide (p ∉ dictKeys ((fun _ => [] : Schedule) "9:00 AM")))).take
          (pySorted (c1_avail "9:00 AM")).length)
        (parse_time_input (some "9:00 AM")) init_states c1_rules
        (permsLex (pySorted (c1_avail "9:00 AM"))) none = some (some (s, a)) ∧
      solve_schedule_recursive c1_avail c1_rules ["P1", "P2"] ["9:30 AM"]
        (fun x => if x = "9:00 AM" then dictMerge ((fun _ => [] : Schedule) "9:00 AM") a
          else (fun _ => [] : Schedule) x)
        (update_states (dictMerge ((fun _ => [] : Schedule) "9:00 AM") a) init_states
          c1_rules) = some none) := by
  exact c1_single_pairing_failure c1_avail c1_rules ["P1", "P2"] "9:00 AM" ["9:30 AM"]
    (fun _ => []) init_states (isFailure_eq (by decide))

/-- Helper: membership in the 30-minute stepping grid of `[s, e)`. -/
theorem mem_slotTimes {t s e : Nat} : t ∈ slotTimes s e ↔ ∃ k, t = s + 30 * k ∧ t < e := by
  unfold slotTimes
  simp only [List.mem_map, List.mem_range]
  constructor
  · rintro ⟨k, hk, rfl⟩
    refine ⟨k, rfl, ?_⟩
    have h2 : (k + 1) * 30 ≤ e - s + 29 :=
      (Nat.le_div_iff_mul_le (by norm_num)).mp hk
    omega
  · rintro ⟨k, rfl, hlt⟩
    refine ⟨k, ?_, rfl⟩
    have h2 : (k + 1) * 30 ≤ e - s + 29 := by omega
    exact (Nat.le_div_iff_mul_le (by norm_num)).mpr h2

/-- C6, amended claim, proved: every generated slot lies in the clipped
shift `[start, end)`; it is marked on-break exactly when the parsed break
start exists and the slot is within 30 minutes of it, in-training exactly
when the parsed training start and the training end (explicit, else start
plus 60 minutes) exist and bracket the slot, and working exactly when it
is neither on-break nor in-training — the break and training marks are
independent and may both hold. -/
theorem c6_classification (e : EmployeeData) (op cl : Nat) (r : SlotRecord)
    (hr : r ∈ preprocess_employee_data [e] op cl) :
    r.isWorking = (!r.isOnBreak && !r.isOnTraining) ∧
    (r.isOnBreak = true ↔ ∃ bs, parse_time_input e.break_start = some bs ∧
      bs ≤ r.time ∧ r.time < bs + 30) ∧
    (r.isOnTraining = true ↔ ∃ ts te, parse_time_input e.training_start = some ts ∧
      t_end_of (parse_time_input e.training_start) (parse_time_input e.training_end) =
        some te ∧ ts ≤ r.time ∧ r.time < te) ∧
    (∃ ss se, parse_time_input e.shift_start = some ss ∧
      parse_time_input e.shift_end = some se ∧
      (if ss < op then op else ss) ≤ r.time ∧
      r.time < (if cl < se then cl else se)) := by
  have hr1 : r ∈ preprocess_one e op cl := by
    simpa [preprocess_employee_data] using hr
  cases hss : parse_time_input e.shift_start with
  | none =>
    rw [preprocess_one, hss] at hr1
    simp at hr1
  | some ss =>
    cases hse : parse_time_input e.shift_end with
    | none =>
      rw [preprocess_one, hss, hse] at hr1
      simp at hr1
    | some se =>
      rw [preprocess_one, hss, hse] at hr1
      simp only [Option.map_some'] at hr1
      obtain ⟨curr, hcur, hrec⟩ := List.mem_map.mp hr1
      obtain ⟨k, hk, hlt⟩ := mem_slotTimes.mp hcur
      subst hrec
      refine ⟨?_, ?_, ?_, ?_⟩
      · simp [Bool.not_or]
      · cases hbs : parse_time_input e.break_start with
        | none => simp [hbs]
        | some bs => simp [hbs, decide_eq_true_iff]
      · cases hts : parse_time_input e.training_start with
        | none => simp [hts]
        | some ts =>
          simp only [hts]
          cases hte : t_end_of (some ts) (parse_time_input e.training_end) with
          | none => simp [hte]
          | some te => simp [hte, decide_eq_true_iff]
      · exact ⟨ss, se, rfl, rfl, by rw [hk]; exact Nat.le_add_right _ _, hlt⟩

/-- C6 witness: the classification theorem applied to the concrete
generated slot of `c6_emp` (whose break and training windows overlap). -/
theorem c6_classification_witness :
    (⟨540, "Ann B.", false, true, true⟩ : SlotRecord).isWorking =
      (!(⟨540, "Ann B.", false, true, true⟩ : SlotRecord).isOnBreak &&
       !(⟨540, "Ann B.", false, true, true⟩ : SlotRecord).isOnTraining) ∧
    ((⟨540, "Ann B.", false, true, true⟩ : SlotRecord).isOnBreak = true ↔
      ∃ bs, parse_time_input c6_emp.break_start = some bs ∧
        bs ≤ (⟨540, "Ann B.", false, true, true⟩ : SlotRecord).time ∧
        (⟨540, "Ann B.", false, true, true⟩ : SlotRecord).time < bs + 30) ∧
    ((⟨540, "Ann B.", false, true, true⟩ : SlotRecord).isOnTraining = true ↔
      ∃ ts te, parse_time_input c6_emp.training_start = some ts ∧
        t_end_of (parse_time_input c6_emp.training_start)
          (parse_time_input c6_emp.training_end) = some te ∧
        ts ≤ (⟨540, "Ann B.", false, true, true⟩ : SlotRecord).time ∧
        (⟨540, "Ann B.", false, true, true⟩ : SlotRecord).time < te) ∧
    (∃ ss se, parse_time_input c6_emp.shift_start = some ss ∧
      parse_time_input c6_emp.shift_end = some se ∧
      (if ss < 0 then 0 else ss) ≤ (⟨540, "Ann B.", false, true, true⟩ : SlotRecord).time ∧
      (⟨540, "Ann B.", false, true, true⟩ : SlotRecord).time <
        (if 1440 < se then 1440 else se)) := by
  exact c6_classification c6_emp 0 1440 ⟨540, "Ann B.", false, true, true⟩ (by decide)

/-- Helper: a head comparison extracted from the lexicographic order. -/
theorem pyLeChars_le_head {x y : Char} {xs ys : List Char}
    (h : pyLeChars (x :: xs) (y :: ys) = true) : x.toNat ≤ y.toNat := by
  simp only [pyLeChars] at h
  by_cases hxy : x.toNat < y.toNat
  · omega
  · by_cases hyx : y.toNat < x.toNat
    · rw [if_neg hxy, if_pos hyx] at h
      cases h
    · omega

/-- Helper: equal heads reduce the lexicographic order to the tails. -/
theorem pyLeChars_eq_tail {x y : Char} (xs ys : List Char) (h : x.toNat = y.toNat) :
    pyLeChars (x :: xs) (y :: ys) = pyLeChars xs ys := by
  simp only [pyLeChars, if_neg (by omega : ¬ x.toNat < y.toNat),
    if_neg (by omega : ¬ y.toNat < x.toNat)]

/-- Helper: the lexicographic order is total. -/
theorem pyLeChars_total : ∀ (a b : List Char), pyLeChars a b = true ∨ pyLeChars b a = true
  | [], _ => Or.inl rfl
  | _ :: _, [] => Or.inr rfl
  | c :: cs, d :: ds => by
    by_cases h1 : c.toNat < d.toNat
    · left
      simp [pyLeChars, h1]
    · by_cases h2 : d.toNat < c.toNat
      · right
        simp [pyLeChars, h2]
      · rcases pyLeChars_total cs ds with h | h
        · left
          simp [pyLeChars, h1, h2, h]
        · right
          simp [pyLeChars, h1, h2, h]

/-- Helper: the lexicographic order is transitive. -/
theorem pyLeChars_trans : ∀ (a b c : List Char), pyLeChars a b = true →
    pyLeChars b c = true → pyLeChars a c = true
  | [], _, _, _, _ => rfl
  | _ :: _, [], _, h1, _ => by cases h1
  | _ :: _, _ :: _, [], _, h2 => by cases h2
  | x :: xs, y :: ys, z :: zs, h1, h2 => by
    have hxy := pyLeChars_le_head h1
    have hyz := pyLeChars_le_head h2
    by_cases hxz : x.toNat < z.toNat
    · simp [pyLeChars, hxz]
    · rw [pyLeChars_eq_tail xs zs (by omega)]
      rw [pyLeChars_eq_tail xs ys (by omega)] at h1
      rw [pyLeChars_eq_tail ys zs (by omega)] at h2
      exact pyLeChars_trans xs ys zs h1 h2

/-- Helper: the lexicographic order is antisymmetric. -/
theorem pyLeChars_antisymm : ∀ (a b : List Char), pyLeChars a b = true →
    pyLeChars b a = true → a = b
  | [], [], _, _ => rfl
  | [], _ :: _, _, h2 => by cases h2
  | _ :: _, [], h1, _ => by cases h1
  | x :: xs, y :: ys, h1, h2 => by
    have hxy := pyLeChars_le_head h1
    have hyx := pyLeChars_le_head h2
    have hchar : x = y := Char.ext (UInt32.ext (le_antisymm hxy hyx))
    subst hchar
    rw [pyLeChars_eq_tail xs ys rfl] at h1
    rw [pyLeChars_eq_tail ys xs rfl] at h2
    rw [pyLeChars_antisymm xs ys h1 h2]

instance : IsTotal String (fun a b => pyLe a b = true) :=
  ⟨fun a b => pyLeChars_total a.data b.data⟩

instance : IsTrans String (fun a b => pyLe a b = true) :=
  ⟨fun a b c => pyLeChars_trans a.data b.data c.data⟩

instance : IsAntisymm String (fun a b => pyLe a b = true) :=
  ⟨fun a b h1 h2 => by
    cases a with
    | mk da =>
      cases b with
      | mk db =>
        rw [pyLeChars_antisymm da db h1 h2]⟩

/-- Helper: `sorted` depends only on the underlying set enumeration. -/
theorem pySorted_perm_eq {l1 l2 : List String} (h : l1.Perm l2) :
    pySorted l1 = pySorted l2 := by
  have hs1 : List.Sorted (fun a b => pyLe a b = true) (pySorted l1) :=
    List.sorted_insertionSort _ l1
  have hs2 : List.Sorted (fun a b => pyLe a b = true) (pySorted l2) :=
    List.sorted_insertionSort _ l2
  exact List.eq_of_perm_of_sorted
    (((List.perm_insertionSort _ l1).trans h).trans (List.perm_insertionSort _ l2).symm)
    hs1 hs2

/-- Helper: the solver's result is unchanged when every slot's availability
set is re-enumerated in any order. -/
theorem solve_avail_perm (rules : Rules) (work_positions : List String) :
    ∀ (ts : List String) (av1 av2 : String → List String),
      (∀ s, (av1 s).Perm (av2 s)) → ∀ (sched : Schedule) (st : States),
      solve_schedule_recursive av1 rules work_positions ts sched st =
        solve_schedule_recursive av2 rules work_positions ts sched st := by
  intro ts
  induction ts with
  | nil => intro av1 av2 h sched st; rfl
  | cons t rest ih =>
    intro av1 av2 h sched st
    rw [solve_cons_eq, solve_cons_eq, pySorted_perm_eq (h t)]
    congr 1
    funext best
    cases best with
    | none => rfl
    | some b =>
      dsimp only
      rw [ih av1 av2 h _ _]

/-- Helper: one override application keeps the pinned schedule identical
and the availability sets pointwise permuted. -/
theorem pinLoop_perm (tss : List String) (pos emp : String) :
    ∀ (L : List Nat) (sched : Schedule) (av1 av2 : String → List String),
      (∀ s, (av1 s).Perm (av2 s)) →
      (pinLoop tss pos emp L (sched, av1)).1 = (pinLoop tss pos emp L (sched, av2)).1 ∧
      (∀ s, ((pinLoop tss pos emp L (sched, av1)).2 s).Perm
        ((pinLoop tss pos emp L (sched, av2)).2 s)) := by
  intro L
  induction L with
  | nil => intro sched av1 av2 h; exact ⟨rfl, h⟩
  | cons curr rest ih =>
    intro sched av1 av2 h
    simp only [pinLoop]
    by_cases hmem : formatSlot curr ∈ tss
    · rw [if_pos hmem, if_pos hmem]
      refine ih _ _ _ (fun s => ?_)
      by_cases hs : s = formatSlot curr
      · simp only [if_pos hs]
        exact (h s).erase emp
      · simp only [if_neg hs]
        exact h s
    · rw [if_neg hmem, if_neg hmem]
      exact ih _ _ _ h

/-- Helper: `apply_override` under availability re-enumeration. -/
theorem apply_override_perm (tss : List String) (ov : Override) (sched : Schedule)
    (av1 av2 : String → List String) (h : ∀ s, (av1 s).Perm (av2 s)) :
    (apply_override tss ov (sched, av1)).1 = (apply_override tss ov (sched, av2)).1 ∧
    (∀ s, ((apply_override tss ov (sched, av1)).2 s).Perm
      ((apply_override tss ov (sched, av2)).2 s)) := by
  unfold apply_override
  cases parse_time_input ov.start_time with
  | none => exact ⟨rfl, h⟩
  | some sdt =>
    cases parse_time_input ov.end_time with
    | none => exact ⟨rfl, h⟩
    | some edt =>
      by_cases he : ov.employee.getD "" = "" ∨ ov.position.getD "" = ""
      · simp only [if_pos he]
        exact ⟨by trivial, h⟩
      · simp only [if_neg he]
        exact pinLoop_perm tss (ov.position.getD "") (ov.employee.getD "")
          (slotTimes sdt edt) sched av1 av2 h

/-- Helper: the whole override pass under availability re-enumeration. -/
theorem apply_overrides_perm (tss : List String) :
    ∀ (ovs : List Override) (sched : Schedule) (av1 av2 : String → List String),
      (∀ s, (av1 s).Perm (av2 s)) →
      (apply_overrides tss ovs (sched, av1)).1 = (apply_overrides tss ovs (sched, av2)).1 ∧
      (∀ s, ((apply_overrides tss ovs (sched, av1)).2 s).Perm
        ((apply_overrides tss ovs (sched, av2)).2 s)) := by
  intro ovs
  induction ovs with
  | nil => intro sched av1 av2 h; exact ⟨rfl, h⟩
  | cons ov rest ih =>
    intro sched av1 av2 h
    obtain ⟨h1, h2⟩ := apply_override_perm tss ov sched av1 av2 h
    have step_eq : ∀ sa : Schedule × (String → List String),
        apply_overrides tss (ov :: rest) sa = apply_overrides tss rest
          (apply_override tss ov sa) := fun sa => rfl
    rw [step_eq, step_eq]
    have hP2 : apply_override tss ov (sched, av2) =
        ((apply_override tss ov (sched, av1)).1, (apply_override tss ov (sched, av2)).2) :=
      Prod.ext_iff.mpr ⟨h1.symm, rfl⟩
    rw [hP2]
    exact ih (apply_override tss ov (sched, av1)).1 (apply_override tss ov (sched, av1)).2
      (apply_override tss ov (sched, av2)).2 h2

/-- C9, confirmed: the run is a pure function of its inputs — with the
same slot labels, rules, catalog, and overrides, and with each per-slot
set (availability, break, training) re-enumerated in any order (the only
representation freedom Python's sets leave), the produced output — table
or failure — is identical. -/
theorem c9_deterministic_output (tss : List String)
    (av1 av2 br1 br2 tr1 tr2 : String → List String) (rules : Rules)
    (work_positions : List String) (ovs : List Override)
    (hav : ∀ s, (av1 s).Perm (av2 s)) (hbr : ∀ s, (br1 s).Perm (br2 s))
    (htr : ∀ s, (tr1 s).Perm (tr2 s)) :
    pipeline_from_sets tss av1 br1 tr1 rules work_positions ovs =
      pipeline_from_sets tss av2 br2 tr2 rules work_positions ovs := by
  simp only [pipeline_from_sets]
  obtain ⟨h1, h2⟩ := apply_overrides_perm tss ovs (fun _ => []) av1 av2 hav
  have hsolve : solve_schedule_recursive (apply_overrides tss ovs (fun _ => [], av1)).2
        rules work_positions tss (apply_overrides tss ovs (fun _ => [], av1)).1
        (fun _ => emptyState) =
      solve_schedule_recursive (apply_overrides tss ovs (fun _ => [], av2)).2
        rules work_positions tss (apply_overrides tss ovs (fun _ => [], av2)).1
        (fun _ => emptyState) := by
    rw [← h1]
    exact solve_avail_perm rules work_positions tss _ _ h2 _ _
  rw [hsolve]
  cases solve_schedule_recursive (apply_overrides tss ovs (fun _ => [], av2)).2
      rules work_positions tss (apply_overrides tss ovs (fun _ => [], av2)).1
      (fun _ => emptyState) with
  | none => rfl
  | some r =>
    cases r with
    | none => rfl
    | some sched =>
      simp only [RunResult.ok.injEq]
      refine List.map_congr_left (fun ts _ => ?_)
      rw [pySorted_perm_eq (hbr ts), pySorted_perm_eq (htr ts)]

/-- C9 witness: the theorem applied to two concrete runs whose availability
sets are enumerated in opposite orders. -/
theorem c9_deterministic_output_witness :
    pipeline_from_sets ["9:00 AM"] (fun _ => ["b", "a"]) (fun _ => []) (fun _ => [])
        ⟨[], none⟩ ["P1", "P2"] [] =
      pipeline_from_sets ["9:00 AM"] (fun _ => ["a", "b"]) (fun _ => []) (fun _ => [])
        ⟨[], none⟩ ["P1", "P2"] [] := by
  exact c9_deterministic_output ["9:00 AM"] (fun _ => ["b", "a"]) (fun _ => ["a", "b"])
    (fun _ => []) (fun _ => []) (fun _ => []) (fun _ => []) ⟨[], none⟩ ["P1", "P2"] []
    (fun _ => by show List.Perm ["b", "a"] ["a", "b"]; decide) (fun _ => List.Perm.refl _)
    (fun _ => List.Perm.refl _)

/-- Helper: the one-permutation unfolding of the best-pairing fold. -/
theorem find_best_cons_eq (positions : List String) (tObj : Option Nat) (st : States)
    (ru : Rules) (p : List String) (rest : List (List String))
    (acc : Option (Int × List (String × String))) :
    find_best_assignment positions tObj st ru (p :: rest) acc =
      (pairing_all_valid (positions.zip p) tObj st ru).bind (fun valid =>
        find_best_assignment positions tObj st ru rest
          (if valid then
            match acc with
            | none => some (calculate_assignment_score (positions.zip p) st ru,
                positions.zip p)
            | some b =>
              if b.1 < calculate_assignment_score (positions.zip p) st ru then
                some (calculate_assignment_score (positions.zip p) st ru, positions.zip p)
              else some b
           else acc)) := rfl

/-- Helper: when the fold returns `None`, the accumulator was `None` and
every enumerated pairing failed validation. -/
theorem find_best_none_spec (positions : List String) (tObj : Option Nat) (st : States)
    (ru : Rules) :
    ∀ (perms : List (List String)) (acc : Option (Int × List (String × String))),
      find_best_assignment positions tObj st ru perms acc = some none →
      acc = none ∧ ∀ p ∈ perms,
        pairing_all_valid (positions.zip p) tObj st ru = some false := by
  intro perms
  induction perms with
  | nil =>
    intro acc hf
    cases acc with
    | none => exact ⟨rfl, by simp⟩
    | some b => cases hf
  | cons p rest ih =>
    intro acc hf
    rw [find_best_cons_eq] at hf
    cases hv : pairing_all_valid (positions.zip p) tObj st ru with
    | none =>
      rw [hv, Option.none_bind] at hf
      cases hf
    | some vb =>
      rw [hv, Option.some_bind] at hf
      cases vb with
      | true =>
        rw [if_pos rfl] at hf
        have hacc := (ih _ hf).1
        cases acc with
        | none => cases hacc
        | some b =>
          dsimp only at hacc
          by_cases hlt : b.1 < calculate_assignment_score (positions.zip p) st ru
          · rw [if_pos hlt] at hacc
            cases hacc
          · rw [if_neg hlt] at hacc
            cases hacc
      | false =>
        rw [if_neg (by simp)] at hf
        obtain ⟨hacc, hall⟩ := ih acc hf
        refine ⟨hacc, fun q hq => ?_⟩
        rcases List.mem_cons.mp hq with rfl | hq2
        · exact hv
        · exact hall q hq2

/-- Helper: the fold started from a committed best `(s0, a0)` ends either
keeping it (when no later valid pairing scores strictly higher) or at the
first later valid pairing reaching the new maximum. -/
theorem find_best_some_spec (positions : List String) (tObj : Option Nat) (st : States)
    (ru : Rules) :
    ∀ (perms : List (List String)) (s0 : Int) (a0 : List (String × String))
      (res : Option (Int × List (String × String))),
      find_best_assignment positions tObj st ru perms (some (s0, a0)) = some res →
      ∃ s a, res = some (s, a) ∧
        ((s = s0 ∧ a = a0 ∧ ∀ p ∈ perms,
            pairing_all_valid (positions.zip p) tObj st ru = some true →
            calculate_assignment_score (positions.zip p) st ru ≤ s0) ∨
         (∃ l1 p l2, perms = l1 ++ p :: l2 ∧ a = positions.zip p ∧
            pairing_all_valid (positions.zip p) tObj st ru = some true ∧
            s = calculate_assignment_score (positions.zip p) st ru ∧ s0 < s ∧
            (∀ q ∈ l1, pairing_all_valid (positions.zip q) tObj st ru = some true →
              calculate_assignment_score (positions.zip q) st ru < s) ∧
            (∀ q ∈ l2, pairing_all_valid (positions.zip q) tObj st ru = some true →
              calculate_assignment_score (positions.zip q) st ru ≤ s))) := by
  intro perms
  induction perms with
  | nil =>
    intro s0 a0 res hf
    cases hf
    exact ⟨s0, a0, rfl, Or.inl ⟨rfl, rfl, by simp⟩⟩
  | cons q rest ih =>
    intro s0 a0 res hf
    rw [find_best_cons_eq] at hf
    cases hv : pairing_all_valid (positions.zip q) tObj st ru with
    | none =>
      rw [hv, Option.none_bind] at hf
      cases hf
    | some vb =>
      rw [hv, Option.some_bind] at hf
      cases vb with
      | false =>
        rw [if_neg (by simp)] at hf
        obtain ⟨s, a, hres, hcase⟩ := ih s0 a0 res hf
        refine ⟨s, a, hres, ?_⟩
        rcases hcase with ⟨h1, h2, h3⟩ | ⟨l1, p, l2, hsplit, ha, hvp, hs, hlt, hl1, hl2⟩
        · refine Or.inl ⟨h1, h2, fun r hr hvr => ?_⟩
          rcases List.mem_cons.mp hr with rfl | hr2
          · rw [hv] at hvr
            cases hvr
          · exact h3 r hr2 hvr
        · refine Or.inr ⟨q :: l1, p, l2, by rw [hsplit]; rfl, ha, hvp, hs, hlt, ?_, hl2⟩
          intro r hr hvr
          rcases List.mem_cons.mp hr with rfl | hr2
          · rw [hv] at hvr
            cases hvr
          · exact hl1 r hr2 hvr
      | true =>
        rw [if_pos rfl] at hf
        dsimp only at hf
        by_cases hsc : s0 < calculate_assignment_score (positions.zip q) st ru
        · rw [if_pos hsc] at hf
          obtain ⟨s, a, hres, hcase⟩ := ih _ _ res hf
          refine ⟨s, a, hres, ?_⟩
          rcases hcase with ⟨h1, h2, h3⟩ | ⟨l1, p, l2, hsplit, ha, hvp, hs, hlt, hl1, hl2⟩
          · subst h1
            subst h2
            exact Or.inr ⟨[], q, rest, rfl, rfl, hv, rfl, hsc, by simp, h3⟩
          · refine Or.inr ⟨q :: l1, p, l2, by rw [hsplit]; rfl, ha, hvp, hs,
              lt_trans hsc hlt, ?_, hl2⟩
            intro r hr hvr
            rcases List.mem_cons.mp hr with rfl | hr2
            · exact hlt
            · exact hl1 r hr2 hvr
        · rw [if_neg hsc] at hf
          obtain ⟨s, a, hres, hcase⟩ := ih s0 a0 res hf
          refine ⟨s, a, hres, ?_⟩
          rcases hcase with ⟨h1, h2, h3⟩ | ⟨l1, p, l2, hsplit, ha, hvp, hs, hlt, hl1, hl2⟩
          · refine Or.inl ⟨h1, h2, fun r hr hvr => ?_⟩
            rcases List.mem_cons.mp hr with rfl | hr2
            · omega
            · exact h3 r hr2 hvr
          · refine Or.inr ⟨q :: l1, p, l2, by rw [hsplit]; rfl, ha, hvp, hs, hlt, ?_, hl2⟩
            intro r hr hvr
            rcases List.mem_cons.mp hr with rfl | hr2
            · omega
            · exact hl1 r hr2 hvr

/-- Helper: full characterisation of the best-pairing fold from the
initial `-inf/None` accumulator. -/
theorem find_best_spec (positions : List String) (tObj : Option Nat) (st : States)
    (ru : Rules) :
    ∀ (perms : List (List String)) (res : Option (Int × List (String × String))),
      find_best_assignment positions tObj st ru perms none = some res →
      (res = none ∧ ∀ p ∈ perms,
        pairing_all_valid (positions.zip p) tObj st ru = some false) ∨
      (∃ s a l1 p l2, res = some (s, a) ∧ perms = l1 ++ p :: l2 ∧ a = positions.zip p ∧
        pairing_all_valid (positions.zip p) tObj st ru = some true ∧
        s = calculate_assignment_score (positions.zip p) st ru ∧
        (∀ q ∈ l1, pairing_all_valid (positions.zip q) tObj st ru = some true →
          calculate_assignment_score (positions.zip q) st ru < s) ∧
        (∀ q ∈ l2, pairing_all_valid (positions.zip q) tObj st ru = some true →
          calculate_assignment_score (positions.zip q) st ru ≤ s)) := by
  intro perms
  induction perms with
  | nil =>
    intro res hf
    cases hf
    exact Or.inl ⟨rfl, by simp⟩
  | cons q rest ih =>
    intro res hf
    rw [find_best_cons_eq] at hf
    cases hv : pairing_all_valid (positions.zip q) tObj st ru with
    | none =>
      rw [hv, Option.none_bind] at hf
      cases hf
    | some vb =>
      rw [hv, Option.some_bind] at hf
      cases vb with
      | false =>
        rw [if_neg (by simp)] at hf
        rcases ih res hf with ⟨hres, hall⟩ | ⟨s, a, l1, p, l2, hres, hsplit, ha, hvp, hs,
            hl1, hl2⟩
        · refine Or.inl ⟨hres, fun r hr => ?_⟩
          rcases List.mem_cons.mp hr with rfl | hr2
          · exact hv
          · exact hall r hr2
        · refine Or.inr ⟨s, a, q :: l1, p, l2, hres, by rw [hsplit]; rfl, ha, hvp, hs,
            ?_, hl2⟩
          intro r hr hvr
          rcases List.mem_cons.mp hr with rfl | hr2
          · rw [hv] at hvr
            cases hvr
          · exact hl1 r hr2 hvr
      | true =>
        rw [if_pos rfl] at hf
        dsimp only at hf
        obtain ⟨s, a, hres, hcase⟩ := find_best_some_spec positions tObj st ru rest _ _
          res hf
        rcases hcase with ⟨h1, h2, h3⟩ | ⟨l1, p, l2, hsplit, ha, hvp, hs, hlt, hl1, hl2⟩
        · subst h1
          subst h2
          exact Or.inr ⟨_, _, [], q, rest, hres, rfl, rfl, hv, rfl, by simp, h3⟩
        · refine Or.inr ⟨s, a, q :: l1, p, l2, hres, by rw [hsplit]; rfl, ha, hvp, hs,
            ?_, hl2⟩
          intro r hr hvr
          rcases List.mem_cons.mp hr with rfl | hr2
          · exact hlt
          · exact hl1 r hr2 hvr

/-- C7, amended claim, proved: whatever the configured strategy (including
none at all), the per-slot choice is the best-scoring valid pairing with
ties broken in favor of the first one seen — precisely: failure means
every enumerated pairing is invalid, and a chosen pairing is an enumerated
valid pairing whose score every earlier valid pairing strictly undercuts
and no later valid pairing exceeds. -/
theorem c7_best_pairing_choice (positions : List String) (tObj : Option Nat)
    (states : States) (rules : Rules) (perms : List (List String))
    (res : Option (Int × List (String × String)))
    (hres : find_best_assignment positions tObj states rules perms none = some res) :
    (res = none → ∀ p ∈ perms,
      pairing_all_valid (positions.zip p) tObj states rules = some false) ∧
    (∀ s a, res = some (s, a) →
      ∃ l1 p l2, perms = l1 ++ p :: l2 ∧ a = positions.zip p ∧
        pairing_all_valid a tObj states rules = some true ∧
        s = calculate_assignment_score a states rules ∧
        (∀ q ∈ l1, pairing_all_valid (positions.zip q) tObj states rules = some true →
          calculate_assignment_score (positions.zip q) states rules < s) ∧
        (∀ q ∈ l2, pairing_all_valid (positions.zip q) tObj states rules = some true →
          calculate_assignment_score (positions.zip q) states rules ≤ s)) := by
  rcases find_best_spec positions tObj states rules perms res hres with ⟨hn, hall⟩ |
      ⟨s, a, l1, p, l2, hsome, hsplit, ha, hvp, hs, hl1, hl2⟩
  · refine ⟨fun _ => hall, fun s a heq => ?_⟩
    rw [hn] at heq
    cases heq
  · constructor
    · intro hnone
      rw [hsome] at hnone
      cases hnone
    · intro s2 a2 heq
      rw [hsome] at heq
      obtain ⟨hse, hae⟩ : s = s2 ∧ a = a2 := by
        have := Option.some_inj.mp heq
        exact ⟨congrArg Prod.fst this, congrArg Prod.snd this⟩
      subst hse
      subst hae
      exact ⟨l1, p, l2, hsplit, ha, ha ▸ hvp, ha ▸ hs, hl1, hl2⟩

/-- C7 witness: the characterisation applied to the concrete instance of
`c7_counterexample` (no strategy configured, chosen pairing
`{P1: b, P2: a}`). -/
theorem c7_best_pairing_choice_witness :
    ((some (2, [("P1", "b"), ("P2", "a")]) : Option (Int × List (String × String))) =
        none → ∀ p ∈ permsLex (pySorted ["a", "b"]),
      pairing_all_valid (["P1", "P2"].zip p) (some 540) c7_states c7_rules = some false) ∧
    (∀ s a, (some (2, [("P1", "b"), ("P2", "a")]) :
        Option (Int × List (String × String))) = some (s, a) →
      ∃ l1 p l2, permsLex (pySorted ["a", "b"]) = l1 ++ p :: l2 ∧
        a = ["P1", "P2"].zip p ∧
        pairing_all_valid a (some 540) c7_states c7_rules = some true ∧
        s = calculate_assignment_score a c7_states c7_rules ∧
        (∀ q ∈ l1, pairing_all_valid (["P1", "P2"].zip q) (some 540) c7_states c7_rules =
          some true →
          calculate_assignment_score (["P1", "P2"].zip q) c7_states c7_rules < s) ∧
        (∀ q ∈ l2, pairing_all_valid (["P1", "P2"].zip q) (some 540) c7_states c7_rules =
          some true →
          calculate_assignment_score (["P1", "P2"].zip q) c7_states c7_rules ≤ s)) := by
  exact c7_best_pairing_choice ["P1", "P2"] (some 540) c7_states c7_rules
    (permsLex (pySorted ["a", "b"])) (some (2, [("P1", "b"), ("P2", "a")])) (by decide)

/-- Helper: inserting a key makes it present. -/
theorem mem_dictKeys_dictInsert_self (k v : String) (d : List (String × String)) :
    k ∈ dictKeys (dictInsert k v d) := by
  unfold dictInsert
  by_cases h : k ∈ dictKeys d
  · rw [if_pos h]
    obtain ⟨q, hq, hqk⟩ := List.mem_map.mp h
    exact List.mem_map.mpr ⟨(k, v), List.mem_map.mpr ⟨q, hq, by rw [if_pos hqk]⟩, rfl⟩
  · rw [if_neg h]
    simp [dictKeys]

/-- Helper: writing the same key-value pair twice equals writing it once. -/
theorem dictInsert_idem (k v : String) (d : List (String × String)) :
    dictInsert k v (dictInsert k v d) = dictInsert k v d := by
  by_cases h : k ∈ dictKeys d
  · have h1 : dictInsert k v d = d.map (fun q => if q.1 = k then (k, v) else q) := by
      rw [dictInsert, if_pos h]
    rw [h1, dictInsert, if_pos (by rw [← h1]; exact mem_dictKeys_dictInsert_self k v d),
      List.map_map]
    apply List.map_congr_left
    intro q _
    by_cases hqk : q.1 = k
    · simp [Function.comp, hqk]
    · simp [Function.comp, hqk]
  · have h1 : dictInsert k v d = d ++ [(k, v)] := by
      rw [dictInsert, if_neg h]
    rw [h1, dictInsert, if_pos (by rw [← h1]; exact mem_dictKeys_dictInsert_self k v d),
      List.map_append]
    have h2 : d.map (fun q => if q.1 = k then (k, v) else q) = d.map id := by
      apply List.map_congr_left
      intro q hq
      have : q.1 ≠ k := fun hk => h (List.mem_map.mpr ⟨q, hq, hk⟩)
      simp [this]
    rw [h2, List.map_id]
    simp

/-- Helper: erasing an element from a duplicate-free list twice equals
erasing it once. -/
theorem erase_idem (emp : String) {l : List String} (h : l.Nodup) :
    (l.erase emp).erase emp = l.erase emp :=
  List.erase_of_not_mem (fun hmem => (h.mem_erase_iff.mp hmem).1 rfl)

/-- Helper: pointwise effect of the pin loop over an arbitrary list of
stepped times — a slot is pinned (and its availability pruned) exactly
when its label is on the grid and is the format of a stepped time. -/
theorem pinLoop_spec (tss : List String) (pos emp : String) :
    ∀ (L : List Nat) (sched : Schedule) (avail : String → List String),
      (∀ s, (avail s).Nodup) → ∀ s,
      ((pinLoop tss pos emp L (sched, avail)).1 s,
       (pinLoop tss pos emp L (sched, avail)).2 s) =
        (if s ∈ tss ∧ s ∈ L.map formatSlot then
          (dictInsert pos emp (sched s), (avail s).erase emp)
        else (sched s, avail s)) := by
  intro L
  induction L with
  | nil =>
    intro sched avail _ s
    simp [pinLoop]
  | cons curr rest ih =>
    intro sched avail hnd s
    simp only [pinLoop]
    by_cases hmem : formatSlot curr ∈ tss
    · rw [if_pos hmem]
      have hnd' : ∀ s2,
          ((fun s2 => if s2 = formatSlot curr then (avail s2).erase emp else avail s2)
            s2).Nodup := by
        intro s2
        by_cases h2 : s2 = formatSlot curr
        · simp only [if_pos h2]
          exact (hnd _).erase _
        · simp only [if_neg h2]
          exact hnd s2
      rw [ih _ _ hnd' s]
      by_cases hs : s = formatSlot curr
      · have hcond : s ∈ tss ∧ s ∈ List.map formatSlot (curr :: rest) :=
          ⟨by rw [hs]; exact hmem,
           by rw [hs]; exact List.mem_map.mpr ⟨curr, List.mem_cons_self _ _, rfl⟩⟩
        by_cases hrest : s ∈ List.map formatSlot rest
        · rw [if_pos ⟨hcond.1, hrest⟩, if_pos hcond]
          simp only [if_pos hs]
          rw [dictInsert_idem, erase_idem emp (hnd s)]
        · rw [if_neg (fun hc => hrest hc.2), if_pos hcond]
          simp only [if_pos hs]
      · have hcons : (s ∈ List.map formatSlot (curr :: rest)) ↔
            s ∈ List.map formatSlot rest := by
          simp only [List.map_cons, List.mem_cons]
          constructor
          · rintro (h | h)
            · exact absurd h hs
            · exact h
          · exact Or.inr
        simp only [if_neg hs]
        by_cases hc : s ∈ tss ∧ s ∈ List.map formatSlot rest
        · rw [if_pos hc, if_pos ⟨hc.1, hcons.mpr hc.2⟩]
        · rw [if_neg hc, if_neg (fun h2 => hc ⟨h2.1, hcons.mp h2.2⟩)]
    · rw [if_neg hmem, ih sched avail hnd s]
      by_cases hs : s = formatSlot curr
      · have hnot : ¬ (s ∈ tss ∧ s ∈ List.map formatSlot rest) :=
          fun hc => hmem (hs ▸ hc.1)
        have hnot2 : ¬ (s ∈ tss ∧ s ∈ List.map formatSlot (curr :: rest)) :=
          fun hc => hmem (hs ▸ hc.1)
        rw [if_neg hnot, if_neg hnot2]
      · have hcons : (s ∈ List.map formatSlot (curr :: rest)) ↔
            s ∈ List.map formatSlot rest := by
          simp only [List.map_cons, List.mem_cons]
          constructor
          · rintro (h | h)
            · exact absurd h hs
            · exact h
          · exact Or.inr
        by_cases hc : s ∈ tss ∧ s ∈ List.map formatSlot rest
        · rw [if_pos hc, if_pos ⟨hc.1, hcons.mpr hc.2⟩]
        · rw [if_neg hc, if_neg (fun h2 => hc ⟨h2.1, hcons.mp h2.2⟩)]

/-- C5, amended claim, proved: a malformed override (missing/empty employee
or position, or an unparsable bound) is skipped, leaving schedule and
availability untouched; a complete override pins exactly the grid slots
whose label is the format of a stepped time `start + k*30` lying in
`[start, end)` — forcing `schedule[slot][position] = employee` and erasing
the employee from that slot's availability — and leaves every other slot
unchanged. -/
theorem c5_override_pinning (tss : List String) (ov : Override) (sched : Schedule)
    (avail : String → List String) (hnd : ∀ s, (avail s).Nodup) :
    ((ov.employee.getD "" = "" ∨ ov.position.getD "" = "" ∨
        parse_time_input ov.start_time = none ∨ parse_time_input ov.end_time = none) →
      apply_override tss ov (sched, avail) = (sched, avail)) ∧
    (∀ emp pos sdt edt, ov.employee = some emp → emp ≠ "" → ov.position = some pos →
      pos ≠ "" → parse_time_input ov.start_time = some sdt →
      parse_time_input ov.end_time = some edt →
      (∀ t, t ∈ slotTimes sdt edt ↔ ∃ k, t = sdt + 30 * k ∧ t < edt) ∧
      (∀ s, ((apply_override tss ov (sched, avail)).1 s,
            (apply_override tss ov (sched, avail)).2 s) =
        (if s ∈ tss ∧ s ∈ (slotTimes sdt edt).map formatSlot then
          (dictInsert pos emp (sched s), (avail s).erase emp)
        else (sched s, avail s)))) := by
  constructor
  · intro hbad
    simp only [apply_override]
    rcases hbad with h | h | h | h
    · cases parse_time_input ov.start_time with
      | none => rfl
      | some sdt =>
        cases parse_time_input ov.end_time with
        | none => rfl
        | some edt =>
          dsimp only
          rw [if_pos (Or.inl h)]
    · cases parse_time_input ov.start_time with
      | none => rfl
      | some sdt =>
        cases parse_time_input ov.end_time with
        | none => rfl
        | some edt =>
          dsimp only
          rw [if_pos (Or.inr h)]
    · rw [h]
    · cases parse_time_input ov.start_time with
      | none => rfl
      | some sdt => rw [h]
  · intro emp pos sdt edt hemp hene hpos hpne hsdt hedt
    refine ⟨fun t => mem_slotTimes, fun s => ?_⟩
    have hstep : apply_override tss ov (sched, avail) =
        pinLoop tss pos emp (slotTimes sdt edt) (sched, avail) := by
      simp only [apply_override, hsdt, hedt, hemp, hpos]
      dsimp only [Option.getD_some]
      rw [if_neg (not_or.mpr ⟨hene, hpne⟩)]
    rw [hstep]
    exact pinLoop_spec tss pos emp (slotTimes sdt edt) sched avail hnd s

/-- C5 witness: the pin characterisation applied to the concrete
misaligned override of `c5_counterexample` (employee `Bob`, position
`Expo`, 9:15 AM - 10:15 AM) over the two-slot grid. -/
theorem c5_override_pinning_witness :
    (∀ t, t ∈ slotTimes 555 615 ↔ ∃ k, t = 555 + 30 * k ∧ t < 615) ∧
    (∀ s, ((apply_override ["9:00 AM", "9:30 AM"]
            ⟨some "Bob", some "Expo", some "9:15 AM", some "10:15 AM"⟩
            ((fun _ => []), (fun _ => ["Ann B."]))).1 s,
          (apply_override ["9:00 AM", "9:30 AM"]
            ⟨some "Bob", some "Expo", some "9:15 AM", some "10:15 AM"⟩
            ((fun _ => []), (fun _ => ["Ann B."]))).2 s) =
      (if s ∈ ["9:00 AM", "9:30 AM"] ∧ s ∈ (slotTimes 555 615).map formatSlot then
        (dictInsert "Expo" "Bob" ((fun _ => ([] : List (String × String))) s),
         ((fun _ => ["Ann B."]) s).erase "Bob")
      else ((fun _ => ([] : List (String × String))) s, (fun _ => ["Ann B."]) s))) := by
  exact (c5_override_pinning ["9:00 AM", "9:30 AM"]
    ⟨some "Bob", some "Expo", some "9:15 AM", some "10:15 AM"⟩
    (fun _ => []) (fun _ => ["Ann B."])
    (fun _ => by show (["Ann B."] : List String).Nodup; decide)).2
    "Bob" "Expo" 555 615 rfl (by decide) rfl (by decide) (by decide) (by decide)

/-- Helper: an element picked by `pickEach`, re-consed onto its remainder,
is a permutation of the original list. -/
theorem pickEach_perm {α : Type} : ∀ (l : List α) (x : α) (rest : List α),
    (x, rest) ∈ pickEach l → (x :: rest).Perm l
  | [], _, _, h => by cases h
  | y :: ys, x, rest, h => by
    rcases List.mem_cons.mp h with heq | hmem
    · injection heq with h1 h2
      subst h1
      subst h2
      exact List.Perm.refl _
    · obtain ⟨⟨x2, rest2⟩, hp, heq⟩ := List.mem_map.mp hmem
      injection heq with h1 h2
      subst h1
      subst h2
      exact (List.Perm.swap y x2 rest2).trans ((pickEach_perm ys x2 rest2 hp).cons y)

/-- Helper: with fuel equal to the length, every generated list is a
permutation of the input. -/
theorem permsLexAux_perm {α : Type} : ∀ (n : Nat) (l p : List α), l.length = n →
    p ∈ permsLexAux n l → p.Perm l
  | 0, l, p, hn, hp => by
    have hl : l = [] := List.length_eq_zero.mp hn
    subst hl
    simp only [permsLexAux, List.mem_singleton] at hp
    subst hp
    exact List.Perm.refl _
  | n + 1, l, p, hn, hp => by
    cases l with
    | nil => simp at hn
    | cons y ys =>
      simp only [permsLexAux] at hp
      obtain ⟨⟨x, rest⟩, hpick, hmem⟩ := List.mem_flatMap.mp hp
      obtain ⟨q, hq, heq⟩ := List.mem_map.mp hmem
      subst heq
      have hperm := pickEach_perm (y :: ys) x rest hpick
      have hlen : rest.length = n := by
        have h2 := hperm.length_eq
        simp only [List.length_cons] at h2 hn
        omega
      exact ((permsLexAux_perm n rest q hlen hq).cons x).trans hperm

/-- Helper: `itertools.permutations` yields permutations. -/
theorem permsLex_perm {α : Type} {l p : List α} (hp : p ∈ permsLex l) : p.Perm l :=
  permsLexAux_perm l.length l p rfl hp

/-- Helper: the keys of a zip form a sublist of the first list. -/
theorem map_fst_zip_sublist {α β : Type} : ∀ (l1 : List α) (l2 : List β),
    ((l1.zip l2).map Prod.fst).Sublist l1
  | [], _ => by simp
  | _ :: _, [] => by simp
  | a :: l1, b :: l2 => by
    simp only [List.zip_cons_cons, List.map_cons]
    exact (map_fst_zip_sublist l1 l2).cons₂ a

/-- Helper: the values of a zip form a sublist of the second list. -/
theorem map_snd_zip_sublist {α β : Type} : ∀ (l1 : List α) (l2 : List β),
    ((l1.zip l2).map Prod.snd).Sublist l2
  | [], _ => by simp
  | _ :: _, [] => by simp
  | a :: l1, b :: l2 => by
    simp only [List.zip_cons_cons, List.map_cons]
    exact (map_snd_zip_sublist l1 l2).cons₂ b

/-- Helper: merging an update whose keys are fresh and duplicate-free is
plain concatenation. -/
theorem dictMerge_append : ∀ (a d : List (String × String)),
    (a.map Prod.fst).Nodup → (∀ k ∈ a.map Prod.fst, k ∉ dictKeys d) →
    dictMerge d a = d ++ a
  | [], d, _, _ => by simp [dictMerge]
  | (k, v) :: a2, d, hnd, hdis => by
    have hk : k ∉ dictKeys d := hdis k (by simp)
    have h1 : dictInsert k v d = d ++ [(k, v)] := by rw [dictInsert, if_neg hk]
    have hstep : dictMerge d ((k, v) :: a2) = dictMerge (d ++ [(k, v)]) a2 := by
      simp only [dictMerge, List.foldl_cons, h1]
    rw [hstep]
    rw [List.map_cons, List.nodup_cons] at hnd
    have hnd0 := hnd
    have hdis2 : ∀ k2 ∈ a2.map Prod.fst, k2 ∉ dictKeys (d ++ [(k, v)]) := by
      intro k2 hk2
      simp only [dictKeys, List.map_append, List.mem_append]
      rintro (hin | hin)
      · exact hdis k2 (List.mem_cons_of_mem _ hk2) hin
      · simp only [List.map_cons, List.map_nil, List.mem_singleton] at hin
        subst hin
        exact hnd0.1 hk2
    rw [dictMerge_append a2 (d ++ [(k, v)]) hnd0.2 hdis2]
    simp

/-- Helper: a computable success check yields the success equation with
the extracted schedule. -/
theorem isSolved_extract {r : Option (Option Schedule)} (h : isSolved r = true) :
    r = some (some (extractSchedule r)) := by
  match r with
  | some (some s) => rfl
  | none => cases h
  | some none => cases h

/-- C2, amended claim, proved: starting from a pre-seeded schedule whose
slots use each position at most once, duplicate no employee, and pin no
employee still present in that slot's availability (what the Override
Applier arranges for matching names), every schedule produced by a
successful solve maps each position of each slot to at most one employee
and never assigns one employee two positions in a slot.  (Without that
pre-seeding condition the employee-uniqueness half fails —
`c2_counterexample` — because two overrides may pin one employee twice.) -/
theorem c2_slot_uniqueness (availability : String → List String) (rules : Rules)
    (work_positions : List String) (hwp : work_positions.Nodup)
    (hav : ∀ s, (availability s).Nodup) :
    ∀ (ts : List String) (sched : Schedule) (st : States) (final : Schedule),
      ts.Nodup →
      (∀ s, (dictKeys (sched s)).Nodup ∧ ((sched s).map Prod.snd).Nodup ∧
        (s ∈ ts → ∀ e ∈ (sched s).map Prod.snd, e ∉ availability s)) →
      solve_schedule_recursive availability rules work_positions ts sched st =
        some (some final) →
      ∀ s, (dictKeys (final s)).Nodup ∧ ((final s).map Prod.snd).Nodup := by
  intro ts
  induction ts with
  | nil =>
    intro sched st final _ hinv hsol
    have hfe : sched = final := by
      have h2 := Option.some_inj.mp hsol
      exact Option.some_inj.mp h2
    intro s
    rw [← hfe]
    exact ⟨(hinv s).1, (hinv s).2.1⟩
  | cons t rest ih =>
    intro sched st final hnodup hinv hsol
    rw [solve_cons_eq] at hsol
    cases hbest : find_best_assignment
        ((work_positions.filter (fun q => decide (q ∉ dictKeys (sched t)))).take
          (pySorted (availability t)).length)
        (parse_time_input (some t)) st rules (permsLex (pySorted (availability t)))
        none with
    | none =>
      rw [hbest, Option.none_bind] at hsol
      cases hsol
    | some best =>
      rw [hbest, Option.some_bind] at hsol
      cases best with
      | none =>
        dsimp only at hsol
        cases hsol
      | some b =>
        dsimp only at hsol
        rcases find_best_spec _ _ _ _ _ _ hbest with ⟨habs, _⟩ |
            ⟨s2, a2, l1, p, l2, hsb, hsplit, ha2, _, _, _, _⟩
        · cases habs
        · have hb2 : b.2 = a2 := by
            rw [Option.some_inj.mp hsb]
          have hpmem : p ∈ permsLex (pySorted (availability t)) := by
            rw [hsplit]
            exact List.mem_append.mpr (Or.inr (List.mem_cons_self _ _))
          have hpavail : p.Perm (availability t) :=
            (permsLex_perm hpmem).trans (List.perm_insertionSort _ _)
          have hpnodup : p.Nodup := hpavail.nodup_iff.mpr (hav t)
          have hkeys_sub : (a2.map Prod.fst).Sublist
              (work_positions.filter (fun q => decide (q ∉ dictKeys (sched t)))) := by
            rw [ha2]
            exact (map_fst_zip_sublist _ _).trans (List.take_sublist _ _)
          have hkeys_nodup : (a2.map Prod.fst).Nodup :=
            (hwp.sublist (List.filter_sublist _)).sublist hkeys_sub
          have hkeys_dis : ∀ q2 ∈ a2.map Prod.fst, q2 ∉ dictKeys (sched t) := by
            intro q2 hq
            have hf := hkeys_sub.subset hq
            have hd := List.of_mem_filter hf
            exact of_decide_eq_true hd
          have hvals_sub : (a2.map Prod.snd).Sublist p := by
            rw [ha2]
            exact map_snd_zip_sublist _ _
          have hvals_nodup : (a2.map Prod.snd).Nodup := hpnodup.sublist hvals_sub
          have hvals_avail : ∀ e ∈ a2.map Prod.snd, e ∈ availability t :=
            fun e he => hpavail.subset (hvals_sub.subset he)
          have hfull : dictMerge (sched t) a2 = sched t ++ a2 :=
            dictMerge_append a2 (sched t) hkeys_nodup hkeys_dis
          have hrest_nodup : rest.Nodup := (List.nodup_cons.mp hnodup).2
          have htnotin : t ∉ rest := (List.nodup_cons.mp hnodup).1
          cases hres : solve_schedule_recursive availability rules work_positions rest
              (fun x => if x = t then dictMerge (sched t) b.2 else sched x)
              (update_states (dictMerge (sched t) b.2) st rules) with
          | none =>
            rw [hres, Option.none_bind] at hsol
            cases hsol
          | some r2 =>
            rw [hres, Option.some_bind] at hsol
            cases r2 with
            | none =>
              dsimp only at hsol
              cases hsol
            | some fin2 =>
              dsimp only at hsol
              have hfin : fin2 = final :=
                Option.some_inj.mp (Option.some_inj.mp hsol)
              subst hfin
              refine ih (fun x => if x = t then dictMerge (sched t) b.2 else sched x)
                (update_states (dictMerge (sched t) b.2) st rules) fin2 hrest_nodup
                ?_ hres
              intro x
              dsimp only
              by_cases hx : x = t
              · rw [if_pos hx]
                subst hx
                refine ⟨?_, ?_, ?_⟩
                · rw [hb2, hfull]
                  simp only [dictKeys, List.map_append]
                  refine List.nodup_append.mpr ⟨(hinv x).1, hkeys_nodup, ?_⟩
                  intro q2 hq1 hq2
                  exact hkeys_dis q2 hq2 hq1
                · rw [hb2, hfull, List.map_append]
                  refine List.nodup_append.mpr ⟨(hinv x).2.1, hvals_nodup, ?_⟩
                  intro e he1 he2
                  exact (hinv x).2.2 (List.mem_cons_self _ _) e he1 (hvals_avail e he2)
                · intro hxr
                  exact absurd hxr htnotin
              · rw [if_neg hx]
                exact ⟨(hinv x).1, (hinv x).2.1,
                  fun hxr => (hinv x).2.2 (List.mem_cons_of_mem _ hxr)⟩

/-- C2 witness: the uniqueness theorem applied to a concrete successful
run — one pinned employee (`Zed` on `Handout`, absent from availability)
plus one solver assignment. -/
theorem c2_slot_uniqueness_witness :
    (dictKeys (extractSchedule c2w_solve "9:00 AM")).Nodup ∧
      ((extractSchedule c2w_solve "9:00 AM").map Prod.snd).Nodup := by
  have hav : ∀ s, (c2w_avail s).Nodup := by
    intro s
    by_cases h : s = "9:00 AM" <;> simp [c2w_avail, h]
  have hinv : ∀ s, (dictKeys (c2w_sched0 s)).Nodup ∧
      ((c2w_sched0 s).map Prod.snd).Nodup ∧
      (s ∈ ["9:00 AM"] → ∀ e ∈ (c2w_sched0 s).map Prod.snd, e ∉ c2w_avail s) := by
    intro s
    by_cases h : s = "9:00 AM"
    · simp only [c2w_sched0, c2w_avail, if_pos h]
      refine ⟨by decide, by decide, ?_⟩
      intro _ e he
      simp only [List.map_cons, List.map_nil, List.mem_singleton] at he
      subst he
      decide
    · simp only [c2w_sched0, c2w_avail, if_neg h]
      exact ⟨by decide, by decide, fun _ e he => by cases he⟩
  exact c2_slot_uniqueness c2w_avail c2w_rules ["Handout", "Conductor"] (by decide) hav
    ["9:00 AM"] c2w_sched0 init_states (extractSchedule c2w_solve) (by decide) hinv
    (isSolved_extract (by decide)) "9:00 AM"

end NewSchedule
